import Mathlib

/-!
# caddy-config-edit: the `newEntry`, `label` and `reload` commands

A shallow embedding of `src/cmd/newEntry.go` and `src/cmd/reload.go`, of
`isSafeFilename` in `src/cmd/utils.go` and of the path resolution that
`src/cmd/label.go` shares with `newEntry.go`, together with the functions of
Go's `regexp`, `strings`, `unicode` and `path/filepath` packages they call.

A Go string is modelled by the list of its characters (well-formed UTF-8).
Offsets count characters; on ASCII text they are the byte offsets Go reports,
and every delimiter the code inspects (newline, braces, white space, the dot
and the slash) is ASCII, so a slice at such an offset is the same text either
way.  Paths follow the Unix rules of `path/filepath`.
-/

namespace CaddyConfigEdit

/-- File contents, host names, upstreams, labels and paths. -/
abbrev Text := List Char

/-! ## The regular expressions of `newEntry.go`

Go's `regexp` package returns the leftmost match and, among the matches that
start there, the one a backtracking matcher finds first (greedy operators try
the longer alternative first, lazy ones the shorter).  The three patterns of the
source are concatenations of assertions, single characters, character classes
and quantified character classes, with at most one capture group, so the
matcher below covers exactly that fragment. -/

/-- One element of a pattern. -/
inductive Item where
  /-- `^` under the `m` flag: beginning of text or just after a newline. -/
  | bol
  /-- `^` without the `m` flag: beginning of text. -/
  | bot
  /-- `$` without the `m` flag: end of text. -/
  | eot
  /-- A literal character. -/
  | lit (c : Char)
  /-- One character of a class. -/
  | cls (p : Char → Bool)
  /-- The class repeated zero or more times: `x*` when `greedy`, else `x*?`. -/
  | star (p : Char → Bool) (greedy : Bool)
  /-- The class zero or one time: `x?` when `greedy`, else `x??`. -/
  | opt (p : Char → Bool) (greedy : Bool)
  /-- Opening parenthesis of capture group 1. -/
  | capOpen
  /-- Closing parenthesis of capture group 1. -/
  | capClose

/-- State of a match attempt: the character just before the current position
(`none` at the beginning of the text), the input that remains, and the input
that remained when capture group 1 was opened and closed. -/
structure MState where
  prev : Option Char
  rest : Text
  capLo : Text
  capHi : Text

/-- The quantifier `x*` / `x*?` followed by the continuation `k`. -/
def matchStar (p : Char → Bool) (greedy : Bool) (k : Option Char → Text → Option MState) :
    Option Char → Text → Option MState
  | prev, [] => k prev []
  | prev, c :: cs =>
    if p c then
      if greedy then
        (matchStar p greedy k (some c) cs).orElse fun _ => k prev (c :: cs)
      else
        (k prev (c :: cs)).orElse fun _ => matchStar p greedy k (some c) cs
    else k prev (c :: cs)

/-- Backtracking match of a pattern at the current position; the result is the
state after the first successful way of matching. -/
def matchItems : List Item → MState → Option MState
  | [], s => some s
  | .bol :: r, s =>
    if s.prev = none ∨ s.prev = some '\n' then matchItems r s else none
  | .bot :: r, s => if s.prev = none then matchItems r s else none
  | .eot :: r, s => if s.rest = [] then matchItems r s else none
  | .lit c :: r, s =>
    match s.rest with
    | d :: ds => if d = c then matchItems r { s with prev := some d, rest := ds } else none
    | [] => none
  | .cls p :: r, s =>
    match s.rest with
    | d :: ds => if p d then matchItems r { s with prev := some d, rest := ds } else none
    | [] => none
  | .star p g :: r, s =>
    matchStar p g (fun prev rest => matchItems r { s with prev := prev, rest := rest }) s.prev s.rest
  | .opt p g :: r, s =>
    match s.rest with
    | d :: ds =>
      if p d then
        if g then
          (matchItems r { s with prev := some d, rest := ds }).orElse fun _ => matchItems r s
        else
          (matchItems r s).orElse fun _ => matchItems r { s with prev := some d, rest := ds }
      else matchItems r s
    | [] => matchItems r s
  | .capOpen :: r, s => matchItems r { s with capLo := s.rest }
  | .capClose :: r, s => matchItems r { s with capHi := s.rest }

/-- Leftmost search: try the pattern at the current position, then one character
further.  Returns the input remaining at the start of the match and the state
at its end. -/
def searchFrom (re : List Item) : Option Char → Text → Option (Text × MState)
  | prev, [] => (matchItems re ⟨prev, [], [], []⟩).map fun s => ([], s)
  | prev, c :: cs =>
    match matchItems re ⟨prev, c :: cs, c :: cs, c :: cs⟩ with
    | some s => some (c :: cs, s)
    | none => searchFrom re (some c) cs

/-- Perl class `\s` of Go's regexp syntax: `[\t\n\f\r ]`. -/
def isReSpace (c : Char) : Bool :=
  c = '\t' || c = '\n' || c = Char.ofNat 12 || c = '\r' || c = ' '

/-- The pattern `"(?ms)^" + regexp.QuoteMeta(host) + "\s*\{.*?\n\}\n?"`
(newEntry.go:101).  `QuoteMeta` escapes every metacharacter, so the host is
a sequence of literal characters; under the `s` flag `.` matches any
character. -/
def blockRe (host : Text) : List Item :=
  [Item.bol] ++ host.map Item.lit ++
    [Item.star isReSpace true, Item.lit '{', Item.star (fun _ => true) false,
     Item.lit '\n', Item.lit '}', Item.opt (fun c => c = '\n') true]

/-- The call `re.FindStringIndex(content)` (newEntry.go:102): the span
`[start, end)` of the leftmost match, or `none` for Go's `nil`. -/
def findBlock (content host : Text) : Option (Nat × Nat) :=
  match searchFrom (blockRe host) none content with
  | some (atStart, s) =>
    some (content.length - atStart.length, content.length - s.rest.length)
  | none => none

/-- The pattern `reverse_proxy\s+([^\s}]+)` (newEntry.go:89); `x+` is `xx*`. -/
def ipRe : List Item :=
  "reverse_proxy".toList.map Item.lit ++
    [Item.cls isReSpace, Item.star isReSpace true, Item.capOpen,
     Item.cls (fun c => !isReSpace c && !(c = '}')),
     Item.star (fun c => !isReSpace c && !(c = '}')) true, Item.capClose]

/-- The class `[a-z0-9.-]`. -/
def isHostChar (c : Char) : Bool :=
  ('a' ≤ c && c ≤ 'z') || ('0' ≤ c && c ≤ '9') || c = '.' || c = '-'

/-- The pattern `^[a-z0-9.-]+$` (newEntry.go:43). -/
def hostRe : List Item :=
  [Item.bot, Item.cls isHostChar, Item.star isHostChar true, Item.eot]

/-- The call `hostRe.MatchString(host)` (newEntry.go:44). -/
def hostMatch (host : Text) : Bool :=
  (searchFrom hostRe none host).isSome

/-- Text of capture group 1 of a finished match. -/
def capture (s : MState) : Text :=
  s.capLo.take (s.capLo.length - s.capHi.length)

/-- The loop of Go's `allMatches` behind `FindAllStringSubmatch(content, -1)`:
successive non-overlapping matches from left to right.  `prevEnd` is the input
that remained at the end of the previous match (`none` for Go's `-1`); an empty
match right after a previous match is not delivered, and after an empty match
the search moves one character on.  Each round moves the position forward, so
the rounds are counted by `fuel`: more rounds than the input has characters
exhaust it, and the result no longer depends on the number
(`findAllFrom_fuel`). -/
def findAllFrom (re : List Item) : Nat → Option Char → Text → Option Nat → List MState
  | 0, _, _, _ => []
  | fuel + 1, prev, rest, prevEnd =>
    match searchFrom re prev rest with
    | none => []
    | some (atStart, s) =>
      if s.rest.length = rest.length then
        let tail :=
          match rest with
          | [] => []
          | c :: cs => findAllFrom re fuel (some c) cs (some s.rest.length)
        if prevEnd = some atStart.length then tail else s :: tail
      else s :: findAllFrom re fuel s.prev s.rest (some s.rest.length)

/-- The call `ipRe.FindAllStringSubmatch(content, -1)` (newEntry.go:90), each
match given by its final state. -/
def findAllUpstreams (content : Text) : List MState :=
  findAllFrom ipRe (content.length + 2) none content none

/-- The duplicate-upstream scan (newEntry.go:88-95): whether the warning is
printed, that is whether some match has `match[1] == upstream`. -/
def upstreamAlreadyUsed (content upstream : Text) : Bool :=
  (findAllUpstreams content).any fun s => capture s = upstream

/-! ## `utils.go` and the library functions the commands call -/

/-- Go's `unicode.IsControl`: the category Cc, U+0000-U+001F and U+007F-U+009F. -/
def isControl (c : Char) : Bool :=
  c.toNat ≤ 0x1F || (0x7F ≤ c.toNat && c.toNat ≤ 0x9F)

/-- The function `isSafeFilename` (utils.go:10-20). -/
def isSafeFilename (s : Text) : Bool :=
  if s = [] then false
  else s.all fun r => !(r = '/' || r = '\\' || r = Char.ofNat 0 || isControl r)

/-- Go's `unicode.IsSpace`. -/
def isSpace (c : Char) : Bool :=
  let n := c.toNat
  (9 ≤ n && n ≤ 13) || n = 0x20 || n = 0x85 || n = 0xA0 || n = 0x1680 ||
    (0x2000 ≤ n && n ≤ 0x200A) || n = 0x2028 || n = 0x2029 || n = 0x202F ||
    n = 0x205F || n = 0x3000

/-- Go's `strings.TrimSpace`. -/
def trimSpace (s : Text) : Text :=
  (s.dropWhile isSpace).rdropWhile isSpace

/-- Go's `strings.TrimRight(s, "\n")`. -/
def trimRightNewlines (s : Text) : Text :=
  s.rdropWhile fun c => c = '\n'

/-- Scan of Go's `filepath.Ext` from the end of the path: `rev` is the part not
yet visited, reversed, and `acc` the part already visited. -/
def extFrom : Text → Text → Text
  | [], _ => []
  | c :: rev, acc =>
    if c = '/' then [] else if c = '.' then '.' :: acc else extFrom rev (c :: acc)

/-- Go's `filepath.Ext` (Unix): the suffix that starts at the last dot of the
last path element, empty when there is no dot. -/
def filepathExt (path : Text) : Text :=
  extFrom path.reverse []

/-- The `..` case of Go's `filepath.Clean` when `out.w > dotdot`: after the
last character `dropped` was removed, go on removing while `out.w > dotdot` and
the character just removed is not a separator.  The buffer is kept reversed. -/
def cleanPop (dotdot : Nat) : Char → Text → Text
  | _, [] => []
  | dropped, d :: r =>
    if dotdot < (d :: r).length ∧ dropped ≠ '/' then cleanPop dotdot d r else d :: r

/-- The `..` case of Go's `filepath.Clean`: back over the last element when
`out.w > dotdot`; else, on a path that is not rooted, append `..` (after a
separator when the buffer is not empty) and move `dotdot` to the end; else
nothing.  Returns the buffer (reversed) and `dotdot`. -/
def cleanDotDot (rooted : Bool) (out : Text) (dotdot : Nat) : Text × Nat :=
  match out with
  | last :: out1 =>
    if dotdot < out.length then (cleanPop dotdot last out1, dotdot)
    else if !rooted then ('.' :: '.' :: '/' :: out, out.length + 3)
    else (out, dotdot)
  | [] => if !rooted then (['.', '.'], 2) else (out, dotdot)

/-- The main loop of Go's `filepath.Clean` (Unix) over the unread part of the
path.  `out` is the output buffer, reversed; `dotdot` the index where `..` must
stop; `copying` says that the loop is inside the copy of a real path element. -/
def cleanLoop (rooted : Bool) : Bool → Text → Text → Nat → Text
  | _, [], out, _ => out
  | true, c :: t, out, dotdot =>
    if c = '/' then cleanLoop rooted false t out dotdot
    else cleanLoop rooted true t (c :: out) dotdot
  | false, [c], out, _ =>
    if c = '/' then out
    else if c = '.' then out
    else if (rooted && out.length != 1) || (!rooted && out.length != 0) then c :: '/' :: out
    else c :: out
  | false, c :: d :: t, out, dotdot =>
    if c = '/' then cleanLoop rooted false (d :: t) out dotdot
    else if c = '.' ∧ d = '/' then cleanLoop rooted false (d :: t) out dotdot
    else if c = '.' ∧ d = '.' ∧ (t = [] ∨ t.head? = some '/') then
      cleanLoop rooted false t (cleanDotDot rooted out dotdot).1 (cleanDotDot rooted out dotdot).2
    else if (rooted && out.length != 1) || (!rooted && out.length != 0) then
      cleanLoop rooted true (d :: t) (c :: '/' :: out) dotdot
    else cleanLoop rooted true (d :: t) (c :: out) dotdot

/-- Go's `filepath.Clean` (Unix). -/
def filepathClean (path : Text) : Text :=
  match path with
  | [] => ['.']
  | c :: t =>
    let out :=
      if c = '/' then cleanLoop true false t ['/'] 1
      else cleanLoop false false (c :: t) [] 0
    if out = [] then ['.'] else out.reverse

/-- Go's `filepath.Join(dir, name)` (Unix): the elements from the first
non-empty one on, joined by the separator and cleaned. -/
def filepathJoin (dir name : Text) : Text :=
  if dir ≠ [] then filepathClean (dir ++ '/' :: name)
  else if name ≠ [] then filepathClean name
  else []

/-! ## Path of a label file (newEntry.go:52-71, label.go:34-51) -/

/-- Normalisation of the `--ext` flag (newEntry.go:53-59, label.go:34-40): a
missing leading dot is added and the empty extension becomes `.caddy` (the
flag help of `label`, label.go:74, says `Empty for no extension`; the code
replaces the empty extension all the same). -/
def normalizeExt (ext : Text) : Text :=
  let ext := if ext ≠ [] ∧ ext.head? ≠ some '.' then '.' :: ext else ext
  if ext = [] then ".caddy".toList else ext

/-- File name of a label (newEntry.go:67-70, label.go:42-45); `ext` is the
normalised extension. -/
def labelFileName (label ext : Text) : Text :=
  if filepathExt label ≠ ext then label ++ ext else label

/-- The variable `fullPath` (newEntry.go:71, label.go:51). -/
def labelPath (dir ext label : Text) : Text :=
  filepathJoin dir (labelFileName label (normalizeExt ext))

/-! ## The `newEntry` command -/

/-- The variable `desired` (newEntry.go:98):
`fmt.Sprintf("%s {\n\timport common\n\treverse_proxy %s\n}\n", host, upstream)`. -/
def desiredBlock (host upstream : Text) : Text :=
  host ++ " \x7b\n\timport common\n\treverse_proxy ".toList ++ upstream ++ "\n\x7d\n".toList

/-- What newEntry.go:100-126 decides for a file content. -/
inductive Decision where
  /-- A block for the host exists and `--force` is unset (newEntry.go:105-107):
  an error is returned and nothing is written. -/
  | conflict
  /-- A block for the host exists and is replaced: the content to write
  (newEntry.go:109). -/
  | replaced (newContent : Text)
  /-- No block for the host: the content to write (newEntry.go:118-126). -/
  | added (newContent : Text)
  deriving DecidableEq

/-- The content a decision writes to the file, `none` when nothing is written. -/
def Decision.written : Decision → Option Text
  | .conflict => none
  | .replaced c => some c
  | .added c => some c

/-- The upsert of newEntry.go:97-126: replace the located block, or append the
block with tidy spacing. -/
def upsert (content host upstream : Text) (force : Bool) : Decision :=
  let desired := desiredBlock host upstream
  match findBlock content host with
  | some (lo, hi) =>
    if !force then Decision.conflict
    else Decision.replaced (content.take lo ++ desired ++ content.drop hi)
  | none =>
    let trimmed := trimRightNewlines content
    if trimmed = [] then Decision.added desired
    else Decision.added (trimmed ++ "\n\n".toList ++ desired)

/-- The flags of `newEntry`: `newEntryDir`, `newEntryExt`, `newEntryForce`. -/
structure Flags where
  dir : Text
  ext : Text
  force : Bool

/-- The errors `newEntryCmd.RunE` returns, one per `fmt.Errorf` of the source. -/
inductive EntryError where
  | invalidLabel (label : Text)
  | invalidHost (host : Text)
  | upstreamRequired
  | mkdirFailed (dir : Text) (cause : String)
  | readFailed (path : Text) (cause : String)
  | createFailed (path : Text) (cause : String)
  | conflict (host path : Text)
  | writeFailed (path : Text) (cause : String)
  deriving DecidableEq

/-- The lines `newEntryCmd.RunE` prints. -/
inductive EntryMsg where
  | warning (upstream path : Text)
  | replaced (host upstream path : Text)
  | added (host upstream path : Text)
  deriving DecidableEq

/-- The files on disk: the content stored at each path, `none` where there is
no file. -/
abbrev Files := Text → Option Text

/-- Failures of the filesystem calls of one run, `none` when the call succeeds.
A failed `os.WriteFile` comes with whatever it left at the path. -/
structure Faults where
  mkdir : Option String
  read : Option String
  create : Option (String × Option Text)
  write : Option (String × Option Text)

/-- Outcome of a run: the files afterwards, the lines printed and the error
returned (`none` for Go's `nil`). -/
structure Run where
  files : Files
  out : List EntryMsg
  err : Option EntryError

/-- The part of `newEntryCmd.RunE` after the file was read (newEntry.go:88-133). -/
def newEntryWrite (force : Bool) (io : Faults) (files : Files)
    (fullPath content host upstream : Text) : Run :=
  let warn :=
    if upstreamAlreadyUsed content upstream then [EntryMsg.warning upstream fullPath] else []
  match upsert content host upstream force with
  | .conflict => ⟨files, warn, some (.conflict host fullPath)⟩
  | .replaced newContent =>
    match io.write with
    | some (e, left) => ⟨Function.update files fullPath left, warn, some (.writeFailed fullPath e)⟩
    | none =>
      ⟨Function.update files fullPath (some newContent),
        warn ++ [EntryMsg.replaced host upstream fullPath], none⟩
  | .added newContent =>
    match io.write with
    | some (e, left) => ⟨Function.update files fullPath left, warn, some (.writeFailed fullPath e)⟩
    | none =>
      ⟨Function.update files fullPath (some newContent),
        warn ++ [EntryMsg.added host upstream fullPath], none⟩

/-- The function `newEntryCmd.RunE` (newEntry.go:32-134) on the arguments
`label`, `host`, `upstream`. -/
def newEntryRunE (flags : Flags) (io : Faults) (files : Files)
    (label host upstream : Text) : Run :=
  if !isSafeFilename label then ⟨files, [], some (.invalidLabel label)⟩
  else if !hostMatch host then ⟨files, [], some (.invalidHost host)⟩
  else if trimSpace upstream = [] then ⟨files, [], some .upstreamRequired⟩
  else
    match io.mkdir with
    | some e => ⟨files, [], some (.mkdirFailed flags.dir e)⟩
    | none =>
      let fullPath := labelPath flags.dir flags.ext label
      match io.read with
      | some e => ⟨files, [], some (.readFailed fullPath e)⟩
      | none =>
        match files fullPath with
        | some b => newEntryWrite flags.force io files fullPath b host upstream
        | none =>
          match io.create with
          | some (e, left) =>
            ⟨Function.update files fullPath left, [], some (.createFailed fullPath e)⟩
          | none =>
            newEntryWrite flags.force io (Function.update files fullPath (some []))
              fullPath [] host upstream

/-! ## The `reload` command -/

/-- The flags of `reload`: `reloadContainer`, `reloadConfig`, `reloadTTY`,
`reloadQuiet`. -/
structure ReloadFlags where
  container : String
  config : String
  tty : Bool
  quiet : Bool

/-- One call of `run` (utils.go:23-28): the program and its arguments. -/
structure Call where
  name : String
  args : List String
  deriving DecidableEq

/-- The process-exec collaborator behind `run`: given the calls made so far and
the next call, the error it returns (`none` for `nil`). -/
abbrev Exec := List Call → Call → Option String

/-- The errors `reloadCmd.RunE` returns; each wraps the error of its step. -/
inductive ReloadError where
  | fmtFailed (cause : String)
  | validateFailed (cause : String)
  | reloadFailed (cause : String)
  deriving DecidableEq

/-- The lines `reloadCmd.RunE` prints. -/
inductive ReloadMsg where
  | invoking (args : List String)
  | reloaded
  deriving DecidableEq

/-- Outcome of `reload`: the calls of `run` in order, the lines printed and the
error returned. -/
structure ReloadRun where
  calls : List Call
  out : List ReloadMsg
  err : Option ReloadError

/-- The slice `baseArgs` (reload.go:26-30). -/
def baseArgs (flags : ReloadFlags) : List String :=
  (if flags.tty then ["exec", "-i"] ++ ["-t"] else ["exec", "-i"]) ++ [flags.container]

/-- The slice `fmtArgs` (reload.go:33-34). -/
def fmtArgs (flags : ReloadFlags) : List String :=
  baseArgs flags ++ ["caddy", "fmt", "--overwrite", flags.config]

/-- The slice `validateArgs` (reload.go:43-44). -/
def validateArgs (flags : ReloadFlags) : List String :=
  baseArgs flags ++ ["caddy", "validate", "--config", flags.config]

/-- The slice `reloadArgs` (reload.go:53-54). -/
def reloadArgs (flags : ReloadFlags) : List String :=
  baseArgs flags ++ ["caddy", "reload", "--config", flags.config]

/-- The lines printed before a step unless `--quiet` is set. -/
def announce (flags : ReloadFlags) (args : List String) : List ReloadMsg :=
  if !flags.quiet then [ReloadMsg.invoking args] else []

/-- The function `reloadCmd.RunE` (reload.go:24-66). -/
def reloadRunE (flags : ReloadFlags) (exec : Exec) : ReloadRun :=
  let c1 : Call := ⟨"docker", fmtArgs flags⟩
  let out1 := announce flags (fmtArgs flags)
  match exec [] c1 with
  | some e => ⟨[c1], out1, some (.fmtFailed e)⟩
  | none =>
    let c2 : Call := ⟨"docker", validateArgs flags⟩
    let out2 := out1 ++ announce flags (validateArgs flags)
    match exec [c1] c2 with
    | some e => ⟨[c1, c2], out2, some (.validateFailed e)⟩
    | none =>
      let c3 : Call := ⟨"docker", reloadArgs flags⟩
      let out3 := out2 ++ announce flags (reloadArgs flags)
      match exec [c1, c2] c3 with
      | some e => ⟨[c1, c2, c3], out3, some (.reloadFailed e)⟩
      | none =>
        ⟨[c1, c2, c3], out3 ++ (if !flags.quiet then [ReloadMsg.reloaded] else []), none⟩

/-! ## What the locator pattern matches, written out -/

/-- The character just before the position reached after reading `pre` from a
position that had `prev` just before it. -/
def lastOr : Option Char → Text → Option Char
  | prev, [] => prev
  | _, c :: t => lastOr (some c) t

/-- Input left after the literal text `lit`, `none` when the input does not
start with it. -/
def stripLit : Text → Text → Option Text
  | [], r => some r
  | _ :: _, [] => none
  | c :: h, d :: r => if d = c then stripLit h r else none

/-- The input after the closing brace once one optional newline is dropped. -/
def dropNewline (t : Text) : Text :=
  if t.head? = some '\n' then t.tail else t

/-- Input left after a newline and `}` at the very start of the input and one
more newline when there is one; `none` when the input does not start so. -/
def closeHere : Text → Option Text
  | c :: d :: t => if c = '\n' ∧ d = '}' then some (dropNewline t) else none
  | _ => none

/-- Input left after the first newline followed by `}` and after one more
newline when there is one; `none` when no newline is followed by `}`. -/
def afterClose : Text → Option Text
  | [] => none
  | c :: t => (closeHere (c :: t)).orElse fun _ => afterClose t

/-- Input left after the opening of a block at a position with `prev` just
before it: line start, the host, white space, `{`. -/
def openAt (host : Text) (prev : Option Char) (rest : Text) : Option Text :=
  if prev = none ∨ prev = some '\n' then
    match stripLit host rest with
    | some r =>
      match r.dropWhile isReSpace with
      | c :: t => if c = '{' then some t else none
      | [] => none
    | none => none
  else none

/-- Input left after a match of the locator pattern at a position with `prev`
just before it: the opening, then up to the first closing. -/
def blockAt (host : Text) (prev : Option Char) (rest : Text) : Option Text :=
  (openAt host prev rest).bind afterClose

/-- Leftmost position where `blockAt` succeeds: the input remaining at the
start of the block and after it. -/
def locate (host : Text) : Option Char → Text → Option (Text × Text)
  | prev, [] => (blockAt host prev []).map fun r => ([], r)
  | prev, c :: cs =>
    match blockAt host prev (c :: cs) with
    | some r => some (c :: cs, r)
    | none => locate host (some c) cs

/-- A position is a line start: nothing or a newline comes just before it. -/
def LineStart (prev : Option Char) : Prop :=
  prev = none ∨ prev = some '\n'

/-- Every character of the text is white space for the pattern class `\s`. -/
def AllSpace (ws : Text) : Prop :=
  ∀ c ∈ ws, isReSpace c = true

/-- The content holds an opening line for the host: at a line start, the host,
white space of the class `\s` (possibly none) and `{`. -/
def HasOpening (C H : Text) : Prop :=
  ∃ pre ws post, C = pre ++ (H ++ (ws ++ '{' :: post)) ∧
    (pre = [] ∨ pre.getLast? = some '\n') ∧ ∀ c ∈ ws, isReSpace c = true

/-- Whether an opening succeeds at some position of the input, `prev` being the
character just before it. -/
def opensFrom (host : Text) : Option Char → Text → Bool
  | prev, [] => (openAt host prev []).isSome
  | prev, c :: cs => (openAt host prev (c :: cs)).isSome || opensFrom host (some c) cs

/-- Whether the content holds an opening line for the host, closed or not: a
match of the locator pattern cut after its `\{`. -/
def hasOpening (content host : Text) : Bool :=
  opensFrom host none content

/-- What `filepath.Join(dir, name)` puts before a plain file name `name`: the
joined path of the one-letter name `x` without that letter. -/
def dirPrefix (dir : Text) : Text :=
  (filepathJoin dir ['x']).dropLast

/-- The separator `filepath.Clean` writes before a real path element. -/
def cleanSep (rooted : Bool) (out : Text) : Text :=
  if (rooted && out.length != 1) || (!rooted && out.length != 0) then ['/'] else []

/-! ## The matcher on the locator pattern -/

theorem matchItems_lits (H : Text) (R : List Item) (s : MState) :
    matchItems (H.map Item.lit ++ R) s =
      match stripLit H s.rest with
      | some r => matchItems R { s with prev := lastOr s.prev H, rest := r }
      | none => none := by
  induction H generalizing s with
  | nil => simp [stripLit, lastOr]
  | cons c h ih =>
    obtain ⟨prev, rest, lo, hi⟩ := s
    cases rest with
    | nil => simp [matchItems, stripLit]
    | cons d ds =>
      by_cases hd : d = c
      · subst hd
        simp [matchItems, stripLit, ih, lastOr]
      · simp [matchItems, stripLit, hd]

theorem map_orElse {α β : Type} (f : α → β) (a : Option α) (b : Unit → Option α) :
    (a.orElse b).map f = (a.map f).orElse fun _ => (b ()).map f := by
  cases a <;> simp [Option.orElse]

theorem matchStar_lazy_any (k : Option Char → Text → Option MState)
    (hk : ∀ prev rest, (k prev rest).map (fun x => x.rest) = closeHere rest)
    (prev : Option Char) (rest : Text) :
    (matchStar (fun _ => true) false k prev rest).map (fun x => x.rest) = afterClose rest := by
  induction rest generalizing prev with
  | nil => simp [matchStar, afterClose, hk, closeHere]
  | cons c cs ih => simp [matchStar, afterClose, map_orElse, hk, ih]

theorem matchStar_greedy_skip (p : Char → Bool) (k : Option Char → Text → Option MState)
    (hk : ∀ prev c cs, p c = true → k prev (c :: cs) = none)
    (prev : Option Char) (rest : Text) :
    matchStar p true k prev rest = k (lastOr prev (rest.takeWhile p)) (rest.dropWhile p) := by
  induction rest generalizing prev with
  | nil => simp [matchStar, lastOr]
  | cons c cs ih =>
    by_cases hc : p c = true
    · simp [matchStar, hc, ih, hk, lastOr, Option.orElse, List.takeWhile, List.dropWhile]
      cases k (lastOr (some c) (List.takeWhile p cs)) (List.dropWhile p cs) <;> rfl
    · simp [matchStar, hc, lastOr, List.takeWhile, List.dropWhile]

theorem matchItems_closing (s : MState) :
    (matchItems [Item.lit '\n', Item.lit '}', Item.opt (fun c => c = '\n') true] s).map
      (fun x => x.rest) = closeHere s.rest := by
  obtain ⟨prev, rest, lo, hi⟩ := s
  match rest with
  | [] => simp [matchItems, closeHere]
  | [c] => by_cases hc : c = '\n' <;> simp [matchItems, closeHere, hc]
  | [c, d] =>
    by_cases hc : c = '\n' <;> by_cases hd : d = '}' <;>
      simp [matchItems, closeHere, dropNewline, hc, hd]
  | c :: d :: e :: t =>
    by_cases hc : c = '\n' <;> by_cases hd : d = '}' <;> by_cases he : e = '\n' <;>
      simp [matchItems, closeHere, dropNewline, hc, hd, he, Option.orElse]

theorem matchItems_blockRe (H : Text) (s : MState) :
    (matchItems (blockRe H) s).map (fun x => x.rest) = blockAt H s.prev s.rest := by
  unfold blockRe blockAt openAt
  rw [List.append_assoc, List.singleton_append, matchItems]
  by_cases hp : s.prev = none ∨ s.prev = some '\n'
  · rw [if_pos hp, if_pos hp, matchItems_lits]
    cases hs : stripLit H s.rest with
    | none => simp
    | some r =>
      simp only []
      rw [matchItems, matchStar_greedy_skip]
      · simp only []
        cases hd : List.dropWhile isReSpace r with
        | nil => simp [matchItems]
        | cons c t =>
          by_cases hc : c = '{'
          · subst hc
            simp only [matchItems, if_true, Option.some_bind]
            exact matchStar_lazy_any _ (fun prev rest => matchItems_closing ⟨prev, rest, _, _⟩) _ _
          · simp [matchItems, hc]
      · intro prev c cs hc
        have : c ≠ '{' := by
          rintro rfl
          simp [isReSpace] at hc
        simp [matchItems, this]
  · rw [if_neg hp, if_neg hp]
    rfl

theorem searchFrom_blockRe (H : Text) (prev : Option Char) (rest : Text) :
    (searchFrom (blockRe H) prev rest).map (fun x => (x.1, x.2.rest)) = locate H prev rest := by
  induction rest generalizing prev with
  | nil =>
    have h := matchItems_blockRe H ⟨prev, [], [], []⟩
    simp only [searchFrom, locate, ← h]
    cases matchItems (blockRe H) ⟨prev, [], [], []⟩ <;> rfl
  | cons c cs ih =>
    have h := matchItems_blockRe H ⟨prev, c :: cs, c :: cs, c :: cs⟩
    simp only [searchFrom, locate, ← h]
    cases matchItems (blockRe H) ⟨prev, c :: cs, c :: cs, c :: cs⟩ with
    | none => simpa using ih (some c)
    | some s => rfl

theorem findBlock_eq_locate (C H : Text) :
    findBlock C H =
      (locate H none C).map fun x => (C.length - x.1.length, C.length - x.2.length) := by
  unfold findBlock
  rw [← searchFrom_blockRe]
  cases searchFrom (blockRe H) none C <;> rfl

/-! ## Shape of what the locator finds -/

theorem lastOr_append (prev : Option Char) (p q : Text) :
    lastOr prev (p ++ q) = lastOr (lastOr prev p) q := by
  induction p generalizing prev with
  | nil => rfl
  | cons c t ih => simp [lastOr, ih]

theorem lastOr_concat (prev : Option Char) (p : Text) (c : Char) :
    lastOr prev (p ++ [c]) = some c := by
  simp [lastOr_append, lastOr]

theorem lastOr_eq (prev : Option Char) (p : Text) :
    lastOr prev p = if p = [] then prev else p.getLast? := by
  rcases List.eq_nil_or_concat p with rfl | ⟨q, c, rfl⟩
  · simp [lastOr]
  · simp [lastOr_concat]

theorem stripLit_eq_some (H rest r : Text) : stripLit H rest = some r ↔ rest = H ++ r := by
  induction H generalizing rest with
  | nil => simp [stripLit, eq_comm]
  | cons c h ih =>
    cases rest with
    | nil => simp [stripLit]
    | cons d ds =>
      by_cases hd : d = c
      · simp [stripLit, hd, ih]
      · simp [stripLit, hd]

theorem stripLit_append (H r : Text) : stripLit H (H ++ r) = some r :=
  (stripLit_eq_some H _ r).2 rfl

theorem closeHere_eq_some (rest r : Text) :
    closeHere rest = some r ↔ ∃ t, rest = '\n' :: '}' :: t ∧ r = dropNewline t := by
  match rest with
  | [] => simp [closeHere]
  | [c] => simp [closeHere]
  | c :: d :: t =>
    simp only [closeHere]
    constructor
    · intro h
      split at h
      · rename_i hcd
        obtain ⟨rfl, rfl⟩ := hcd
        exact ⟨t, rfl, by simpa using h.symm⟩
      · simp at h
    · rintro ⟨t', h, rfl⟩
      simp only [List.cons.injEq] at h
      obtain ⟨rfl, rfl, rfl⟩ := h
      simp

theorem closeHere_eq_none (rest : Text) :
    closeHere rest = none ↔ ¬ ['\n', '}'] <+: rest := by
  match rest with
  | [] => simp [closeHere]
  | [c] => simp [closeHere, List.prefix_cons_inj, List.cons_prefix_cons]
  | c :: d :: t =>
    simp only [closeHere, List.cons_prefix_cons, List.nil_prefix, and_true]
    by_cases h : c = '\n' ∧ d = '}'
    · simp [h]
    · simp only [h, if_false, true_iff]
      intro h2
      exact h ⟨h2.1.symm, h2.2.symm⟩

theorem afterClose_eq_none (rest : Text) :
    afterClose rest = none ↔ ¬ ['\n', '}'] <:+: rest := by
  induction rest with
  | nil => simp [afterClose]
  | cons c t ih =>
    rw [afterClose, List.infix_cons_iff, not_or, ← ih, ← closeHere_eq_none]
    cases closeHere (c :: t) <;> simp [Option.orElse]

theorem afterClose_eq_some (rest r : Text) :
    afterClose rest = some r ↔
      ∃ body t, rest = body ++ '\n' :: '}' :: t ∧ r = dropNewline t ∧
        ¬ ['\n', '}'] <:+: body ++ ['\n'] := by
  induction rest with
  | nil => simp [afterClose]
  | cons c t ih =>
    rw [afterClose]
    cases hc : closeHere (c :: t) with
    | some r' =>
      obtain ⟨t', ht', hr'⟩ := (closeHere_eq_some _ _).1 hc
      simp only [Option.orElse]
      constructor
      · intro h
        refine ⟨[], t', by simpa using ht', ?_, by decide⟩
        simp at h
        rw [← h, hr']
      · rintro ⟨body, t2, h1, h2, h3⟩
        cases body with
        | nil =>
          rw [ht'] at h1
          simp at h1
          rw [h2, hr', h1]
        | cons b body =>
          exfalso
          apply h3
          rw [ht'] at h1
          simp only [List.cons_append, List.cons.injEq] at h1
          obtain ⟨rfl, h1⟩ := h1
          cases body with
          | nil => simp at h1
          | cons b2 body =>
            simp only [List.cons_append, List.cons.injEq] at h1
            obtain ⟨rfl, -⟩ := h1
            exact ⟨[], body ++ ['\n'], by simp⟩
    | none =>
      simp only [Option.orElse, ih]
      have hn := (closeHere_eq_none _).1 hc
      constructor
      · rintro ⟨body, t2, h1, h2, h3⟩
        refine ⟨c :: body, t2, by simp [h1], h2, ?_⟩
        rw [List.cons_append, List.infix_cons_iff, not_or]
        refine ⟨?_, h3⟩
        intro hp
        apply hn
        rw [h1]
        cases body with
        | nil => simp at hp
        | cons b body =>
          simp only [List.cons_append, List.cons_prefix_cons, List.nil_prefix, and_true] at hp ⊢
          exact hp
      · rintro ⟨body, t2, h1, h2, h3⟩
        cases body with
        | nil =>
          exfalso
          apply hn
          rw [h1]
          simp [List.cons_prefix_cons]
        | cons b body =>
          simp only [List.cons_append, List.cons.injEq] at h1
          obtain ⟨rfl, rfl⟩ := h1
          refine ⟨body, t2, rfl, h2, ?_⟩
          intro hi
          apply h3
          rw [List.cons_append]
          exact List.infix_cons hi

theorem dropWhile_eq_cons (p : Char → Bool) (r : Text) (c : Char) (t : Text) :
    r.dropWhile p = c :: t ↔
      ∃ ws, r = ws ++ c :: t ∧ (∀ x ∈ ws, p x = true) ∧ p c = false := by
  induction r with
  | nil => simp
  | cons d ds ih =>
    by_cases hd : p d = true
    · rw [List.dropWhile_cons_of_pos hd, ih]
      constructor
      · rintro ⟨ws, h1, h2, h3⟩
        exact ⟨d :: ws, by simp [h1], by simpa [hd] using h2, h3⟩
      · rintro ⟨ws, h1, h2, h3⟩
        cases ws with
        | nil =>
          simp only [List.nil_append, List.cons.injEq] at h1
          rw [h1.1, h3] at hd
          simp at hd
        | cons w ws =>
          simp only [List.cons_append, List.cons.injEq] at h1
          exact ⟨ws, h1.2, fun x hx => h2 x (List.mem_cons_of_mem _ hx), h3⟩
    · rw [List.dropWhile_cons_of_neg hd]
      constructor
      · intro h
        simp only [List.cons.injEq] at h
        obtain ⟨rfl, rfl⟩ := h
        exact ⟨[], rfl, by simp, by simpa using hd⟩
      · rintro ⟨ws, h1, h2, h3⟩
        cases ws with
        | nil => simpa using h1
        | cons w ws =>
          simp only [List.cons_append, List.cons.injEq] at h1
          exact absurd (h2 w (List.mem_cons_self _ _)) (h1.1 ▸ hd)

theorem openAt_eq_some (H : Text) (prev : Option Char) (a t : Text) :
    openAt H prev a = some t ↔
      LineStart prev ∧ ∃ ws, a = H ++ (ws ++ '{' :: t) ∧ AllSpace ws := by
  unfold openAt LineStart AllSpace
  by_cases hp : prev = none ∨ prev = some '\n'
  · simp only [hp, if_true, true_and]
    cases hs : stripLit H a with
    | none =>
      simp only [reduceCtorEq, false_iff, not_exists]
      rintro ws ⟨h1, -⟩
      rw [h1, stripLit_append] at hs
      simp at hs
    | some r =>
      have hr := (stripLit_eq_some _ _ _).1 hs
      subst hr
      simp only [List.append_cancel_left_eq]
      cases hd : List.dropWhile isReSpace r with
      | nil =>
        simp only [reduceCtorEq, false_iff, not_exists]
        rintro ws ⟨h1, h2⟩
        have := (dropWhile_eq_cons isReSpace r '{' t).2 ⟨ws, h1, h2, by decide⟩
        rw [hd] at this
        simp at this
      | cons c t' =>
        simp only []
        by_cases hc : c = '{'
        · subst hc
          simp only [if_true, Option.some.injEq]
          constructor
          · rintro rfl
            obtain ⟨ws, h1, h2, -⟩ := (dropWhile_eq_cons _ _ _ _).1 hd
            exact ⟨ws, h1, h2⟩
          · rintro ⟨ws, h1, h2⟩
            have := (dropWhile_eq_cons isReSpace r '{' t).2 ⟨ws, h1, h2, by decide⟩
            rw [hd] at this
            simpa using this
        · simp only [hc, if_false, reduceCtorEq, false_iff, not_exists]
          rintro ws ⟨h1, h2⟩
          have := (dropWhile_eq_cons isReSpace r '{' t).2 ⟨ws, h1, h2, by decide⟩
          rw [hd] at this
          simp only [List.cons.injEq] at this
          exact hc this.1
  · simp [hp]

theorem blockAt_eq_some (H : Text) (prev : Option Char) (a r : Text) :
    blockAt H prev a = some r ↔
      LineStart prev ∧ ∃ ws body t, a = H ++ (ws ++ '{' :: (body ++ '\n' :: '}' :: t)) ∧
        AllSpace ws ∧ r = dropNewline t ∧ ¬ ['\n', '}'] <:+: body ++ ['\n'] := by
  unfold blockAt
  constructor
  · intro h
    obtain ⟨t0, h1, h2⟩ := Option.bind_eq_some.1 h
    obtain ⟨hl, ws, ha, hws⟩ := (openAt_eq_some _ _ _ _).1 h1
    obtain ⟨body, t, rfl, hr, hb⟩ := (afterClose_eq_some _ _).1 h2
    exact ⟨hl, ws, body, t, ha, hws, hr, hb⟩
  · rintro ⟨hl, ws, body, t, ha, hws, hr, hb⟩
    refine Option.bind_eq_some.2 ⟨body ++ '\n' :: '}' :: t, ?_, ?_⟩
    · exact (openAt_eq_some _ _ _ _).2 ⟨hl, ws, ha, hws⟩
    · exact (afterClose_eq_some _ _).2 ⟨body, t, rfl, hr, hb⟩

theorem locate_eq_none (H : Text) (prev : Option Char) (rest : Text) :
    locate H prev rest = none ↔
      ∀ p a, rest = p ++ a → blockAt H (lastOr prev p) a = none := by
  induction rest generalizing prev with
  | nil =>
    simp only [locate, Option.map_eq_none']
    constructor
    · intro h p a hpa
      obtain ⟨rfl, rfl⟩ := List.append_eq_nil.1 hpa.symm
      simpa [lastOr] using h
    · intro h
      simpa [lastOr] using h [] [] rfl
  | cons c cs ih =>
    rw [locate]
    cases hb : blockAt H prev (c :: cs) with
    | some r =>
      constructor
      · intro h
        simp at h
      · intro h
        have := h [] (c :: cs) rfl
        simp [lastOr, hb] at this
    | none =>
      simp only [ih]
      constructor
      · intro h p a hpa
        cases p with
        | nil =>
          simp only [List.nil_append] at hpa
          subst hpa
          simpa [lastOr] using hb
        | cons d p =>
          simp only [List.cons_append, List.cons.injEq] at hpa
          obtain ⟨rfl, hpa⟩ := hpa
          simpa [lastOr] using h p a hpa
      · intro h p a hpa
        have := h (c :: p) a (by simp [hpa])
        simpa [lastOr] using this

theorem locate_eq_some (H : Text) (prev : Option Char) (rest a r : Text) :
    locate H prev rest = some (a, r) ↔
      ∃ pre, rest = pre ++ a ∧ blockAt H (lastOr prev pre) a = some r ∧
        ∀ p q, pre = p ++ q → q ≠ [] → blockAt H (lastOr prev p) (q ++ a) = none := by
  induction rest generalizing prev with
  | nil =>
    simp only [locate, Option.map_eq_some']
    constructor
    · rintro ⟨r', h1, h2⟩
      simp only [Prod.mk.injEq] at h2
      obtain ⟨rfl, rfl⟩ := h2
      refine ⟨[], rfl, by simpa [lastOr] using h1, ?_⟩
      intro p q hpq hq
      obtain ⟨-, rfl⟩ := List.append_eq_nil.1 hpq.symm
      exact absurd rfl hq
    · rintro ⟨pre, h1, h2, -⟩
      obtain ⟨rfl, rfl⟩ := List.append_eq_nil.1 h1.symm
      exact ⟨r, by simpa [lastOr] using h2, rfl⟩
  | cons c cs ih =>
    rw [locate]
    cases hb : blockAt H prev (c :: cs) with
    | some r' =>
      simp only [Option.some.injEq, Prod.mk.injEq]
      constructor
      · rintro ⟨rfl, rfl⟩
        refine ⟨[], rfl, by simpa [lastOr] using hb, ?_⟩
        intro p q hpq hq
        obtain ⟨-, rfl⟩ := List.append_eq_nil.1 hpq.symm
        exact absurd rfl hq
      · rintro ⟨pre, h1, h2, h3⟩
        cases pre with
        | nil =>
          simp only [List.nil_append] at h1
          subst h1
          simp only [lastOr] at h2
          rw [hb] at h2
          exact ⟨rfl, by simpa using h2⟩
        | cons d pre =>
          exfalso
          have := h3 [] (d :: pre) rfl (by simp)
          rw [← h1] at this
          simp only [lastOr] at this
          rw [hb] at this
          simp at this
    | none =>
      simp only [ih]
      constructor
      · rintro ⟨pre, h1, h2, h3⟩
        refine ⟨c :: pre, by simp [h1], by simpa [lastOr] using h2, ?_⟩
        intro p q hpq hq
        cases p with
        | nil =>
          simp only [List.nil_append] at hpq
          subst hpq
          simpa [lastOr, ← h1] using hb
        | cons d p =>
          simp only [List.cons_append, List.cons.injEq] at hpq
          obtain ⟨rfl, hpq⟩ := hpq
          simpa [lastOr] using h3 p q hpq hq
      · rintro ⟨pre, h1, h2, h3⟩
        cases pre with
        | nil =>
          simp only [List.nil_append] at h1
          subst h1
          simp only [lastOr] at h2
          rw [hb] at h2
          simp at h2
        | cons d pre =>
          simp only [List.cons_append, List.cons.injEq] at h1
          obtain ⟨rfl, h1⟩ := h1
          refine ⟨pre, h1, by simpa [lastOr] using h2, ?_⟩
          intro p q hpq hq
          simpa [lastOr] using h3 (c :: p) q (by simp [hpq]) hq

theorem dropNewline_spec (t : Text) :
    ∃ nl, t = nl ++ dropNewline t ∧
      (nl = ['\n'] ∨ (nl = [] ∧ (dropNewline t).head? ≠ some '\n')) := by
  unfold dropNewline
  cases t with
  | nil => exact ⟨[], by simp⟩
  | cons c t =>
    by_cases hc : c = '\n'
    · subst hc
      exact ⟨['\n'], by simp⟩
    · exact ⟨[], by simp [hc]⟩

theorem lineStart_lastOr (pre : Text) :
    LineStart (lastOr none pre) ↔ pre = [] ∨ pre.getLast? = some '\n' := by
  unfold LineStart
  rw [lastOr_eq]
  by_cases h : pre = []
  · simp [h]
  · simp only [h, if_false, false_or, or_iff_right_iff_imp]
    intro hn
    exact absurd (List.getLast?_eq_none_iff.1 hn) h

theorem findBlock_eq_some (C H : Text) (lo hi : Nat) :
    findBlock C H = some (lo, hi) ↔
      ∃ pre a r, C = pre ++ a ∧ lo = pre.length ∧ hi = C.length - r.length ∧
        blockAt H (lastOr none pre) a = some r ∧
        ∀ p q, pre = p ++ q → q ≠ [] → blockAt H (lastOr none p) (q ++ a) = none := by
  rw [findBlock_eq_locate]
  constructor
  · intro h
    obtain ⟨⟨a, r⟩, h1, h2⟩ := Option.map_eq_some'.1 h
    obtain ⟨pre, hC, hb, he⟩ := (locate_eq_some _ _ _ _ _).1 h1
    simp only [Prod.mk.injEq] at h2
    refine ⟨pre, a, r, hC, ?_, h2.2.symm, hb, he⟩
    rw [← h2.1, hC]
    simp
  · rintro ⟨pre, a, r, hC, hlo, hhi, hb, he⟩
    refine Option.map_eq_some'.2 ⟨(a, r), (locate_eq_some _ _ _ _ _).2 ⟨pre, hC, hb, he⟩, ?_⟩
    simp only [Prod.mk.injEq]
    refine ⟨?_, hhi.symm⟩
    rw [hlo, hC]
    simp

theorem findBlock_eq_none (C H : Text) :
    findBlock C H = none ↔ ∀ p a, C = p ++ a → blockAt H (lastOr none p) a = none := by
  rw [findBlock_eq_locate, Option.map_eq_none', locate_eq_none]

/-- Shape of a located span, in full. -/
theorem findBlock_shape (C H : Text) (lo hi : Nat) (h : findBlock C H = some (lo, hi)) :
    ∃ pre ws body nl post,
      C = pre ++ (H ++ (ws ++ '{' :: (body ++ '\n' :: '}' :: nl))) ++ post ∧
      lo = pre.length ∧
      hi = (pre ++ (H ++ (ws ++ '{' :: (body ++ '\n' :: '}' :: nl)))).length ∧
      (pre = [] ∨ pre.getLast? = some '\n') ∧ AllSpace ws ∧
      ¬ ['\n', '}'] <:+: body ++ ['\n'] ∧
      (nl = ['\n'] ∨ (nl = [] ∧ post.head? ≠ some '\n')) := by
  obtain ⟨pre, a, r, hC, hlo, hhi, hb, -⟩ := (findBlock_eq_some _ _ _ _).1 h
  obtain ⟨hl, ws, body, t, ha, hws, hr, hbody⟩ := (blockAt_eq_some _ _ _ _).1 hb
  obtain ⟨nl, ht, hnl⟩ := dropNewline_spec t
  rw [← hr] at ht hnl
  refine ⟨pre, ws, body, nl, r, ?_, hlo, ?_, (lineStart_lastOr pre).1 hl, hws, hbody, hnl⟩
  · rw [hC, ha, ht]
    simp
  · rw [hhi, hC, ha, ht]
    simp only [List.length_append, List.length_cons]
    omega

/-! ## Claims on the upsert and the locator -/

/-- C2 (force-replace path): when the locator returns the span `[lo, hi)` and
force is set, the upsert writes `C[:lo] + desiredBlock + C[hi:]`; what precedes
the span and what follows it are kept in place and order.  When the write
succeeds that content is what the file holds afterwards. -/
theorem upsert_force_replace (C H U : Text) (lo hi : Nat)
    (h : findBlock C H = some (lo, hi)) :
    upsert C H U true =
        Decision.replaced (C.take lo ++ desiredBlock H U ++ C.drop hi) ∧
      (C.take lo ++ desiredBlock H U ++ C.drop hi).take lo = C.take lo ∧
      (C.take lo ++ desiredBlock H U ++ C.drop hi).drop (lo + (desiredBlock H U).length) =
        C.drop hi ∧
      ∀ (io : Faults) (files : Files) (path : Text), io.write = none →
        (newEntryWrite true io files path C H U).files path =
            some (C.take lo ++ desiredBlock H U ++ C.drop hi) ∧
          (newEntryWrite true io files path C H U).err = none := by
  have hlo : lo ≤ C.length := by
    obtain ⟨pre, a, r, hC, hlo, -⟩ := (findBlock_eq_some _ _ _ _).1 h
    rw [hlo, hC]
    simp
  have hlen : (C.take lo).length = lo := by simp [hlo]
  have hu : upsert C H U true =
      Decision.replaced (C.take lo ++ desiredBlock H U ++ C.drop hi) := by
    unfold upsert
    simp [h]
  refine ⟨hu, ?_, ?_, ?_⟩
  · rw [List.append_assoc, List.take_left' hlen]
  · rw [List.drop_left']
    simp [hlen]
  · intro io files path hw
    simp [newEntryWrite, hu, hw]

theorem upsert_force_replace_witness :
    findBlock
        ("a.example.com \x7b\n\timport common\n\treverse_proxy 10.0.0.1\n\x7d\n\n".toList ++
          "b.example.com \x7b\n\timport common\n\treverse_proxy 10.0.0.2\n\x7d\n".toList)
        "a.example.com".toList = some (0, 57) ∧
      upsert
        ("a.example.com \x7b\n\timport common\n\treverse_proxy 10.0.0.1\n\x7d\n\n".toList ++
          "b.example.com \x7b\n\timport common\n\treverse_proxy 10.0.0.2\n\x7d\n".toList)
        "a.example.com".toList "10.0.0.9".toList true =
        Decision.replaced
          ("a.example.com \x7b\n\timport common\n\treverse_proxy 10.0.0.9\n\x7d\n\n".toList ++
            "b.example.com \x7b\n\timport common\n\treverse_proxy 10.0.0.2\n\x7d\n".toList) :=
  ⟨by decide,
    (upsert_force_replace _ "a.example.com".toList "10.0.0.9".toList 0 57
      (by decide)).1.trans (by decide)⟩

/-- C5, as stated, fails: in `h{x`, newline, `}x` the locator finds the span
`[0, 5)` for host `h`, yet the text at its start is not the line `h {`
(there is no space and the brace is not followed by a newline), and the `}`
that ends the span is followed by `x`, neither a newline nor the end. -/
theorem located_shape_counterexample :
    findBlock "h\x7bx\n\x7dx".toList "h".toList = some (0, 5) ∧
      ¬ ("h".toList ++ " \x7b\n".toList) <+: "h\x7bx\n\x7dx".toList.drop 0 ∧
      ("h\x7bx\n\x7dx".toList.drop 5).head? = some 'x' := by
  decide

/-- C5, amended: a located span `[lo, hi)` starts at a line start with the host,
then zero or more white-space characters of the class `\s` (newlines included),
then `{`; it ends just after the first newline followed by `}` that comes after
that brace, and after one more newline when one follows immediately. -/
theorem located_block_shape (C H : Text) (lo hi : Nat)
    (h : findBlock C H = some (lo, hi)) :
    ∃ pre ws body nl post,
      C = pre ++ (H ++ (ws ++ '{' :: (body ++ '\n' :: '}' :: nl))) ++ post ∧
      lo = pre.length ∧
      hi = (pre ++ (H ++ (ws ++ '{' :: (body ++ '\n' :: '}' :: nl)))).length ∧
      (pre = [] ∨ pre.getLast? = some '\n') ∧
      (∀ c ∈ ws, isReSpace c = true) ∧
      ¬ ['\n', '}'] <:+: body ++ ['\n'] ∧
      (nl = ['\n'] ∨ (nl = [] ∧ post.head? ≠ some '\n')) :=
  findBlock_shape C H lo hi h

theorem located_block_shape_witness :
    findBlock "h\x7bx\n\x7dx".toList "h".toList = some (0, 5) ∧
      ∃ pre ws body nl post,
        "h\x7bx\n\x7dx".toList =
          pre ++ ("h".toList ++ (ws ++ '{' :: (body ++ '\n' :: '}' :: nl))) ++ post ∧
        0 = pre.length ∧
        5 = (pre ++ ("h".toList ++ (ws ++ '{' :: (body ++ '\n' :: '}' :: nl)))).length ∧
        (pre = [] ∨ pre.getLast? = some '\n') ∧
        (∀ c ∈ ws, isReSpace c = true) ∧
        ¬ ['\n', '}'] <:+: body ++ ['\n'] ∧
        (nl = ['\n'] ∨ (nl = [] ∧ post.head? ≠ some '\n')) :=
  ⟨by decide, located_block_shape "h\x7bx\n\x7dx".toList "h".toList 0 5 (by decide)⟩

theorem infix_of_append_eq (body z x y : Text)
    (h : body ++ '\n' :: z = x ++ '\n' :: '}' :: y) (hx : x.length < body.length) :
    ['\n', '}'] <:+: body ++ ['\n'] := by
  have h' : (body ++ ['\n']) ++ z = (x ++ ['\n', '}']) ++ y := by simpa using h
  have hp : x ++ ['\n', '}'] <+: body ++ ['\n'] := by
    apply @List.prefix_of_prefix_length_le _ _ _ ((body ++ ['\n']) ++ z)
    · rw [h']
      exact List.prefix_append _ _
    · exact List.prefix_append _ _
    · simp only [List.length_append, List.length_cons, List.length_nil]
      omega
  exact List.IsInfix.trans (List.infix_append' x ['\n', '}'] []) (by simpa using hp.isInfix)

/-- C6 (non-greediness): in a content that starts with a block `a {` ... `}`
whose body has no line starting with `}`, whatever follows (a second block
`b {` ... `}` in particular), the span located for `a` is exactly that block.
In general a located span reaches no further than the first newline followed
by `}` after the opening brace: any such closing that comes after the brace
ends within one character of the end of the span. -/
theorem locator_non_greedy (a inner rest : Text)
    (h : ¬ ['\n', '}'] <:+: inner ++ ['\n']) :
    findBlock (a ++ " \x7b".toList ++ inner ++ "\n\x7d\n".toList ++ rest) a =
        some (0, (a ++ " \x7b".toList ++ inner ++ "\n\x7d\n".toList).length) ∧
      ∀ C H lo hi, findBlock C H = some (lo, hi) →
        ∃ ws, (∀ c ∈ ws, isReSpace c = true) ∧ (H ++ ws ++ ['{']) <+: C.drop lo ∧
          ∀ x y, C = x ++ '\n' :: '}' :: y → lo + (H ++ ws ++ ['{']).length ≤ x.length →
            hi ≤ x.length + 3 := by
  constructor
  · rw [findBlock_eq_some]
    refine ⟨[], _, rest, rfl, rfl, ?_, ?_, ?_⟩
    · simp only [List.nil_append, List.length_append]
      omega
    · rw [blockAt_eq_some]
      refine ⟨Or.inl rfl, [' '], inner, '\n' :: rest, by simp, ?_, by simp [dropNewline], h⟩
      intro c hc
      simp only [List.mem_singleton] at hc
      subst hc
      decide
    · intro p q hpq hq
      obtain ⟨-, rfl⟩ := List.append_eq_nil.1 hpq.symm
      exact absurd rfl hq
  · intro C H lo hi hf
    obtain ⟨pre, ws, body, nl, post, hC, hlo, hhi, -, hws, hbody, hnl⟩ :=
      findBlock_shape C H lo hi hf
    refine ⟨ws, hws, ?_, ?_⟩
    · rw [hC, hlo]
      simp only [List.append_assoc, List.drop_left]
      exact ⟨body ++ '\n' :: '}' :: (nl ++ post), by simp⟩
    · intro x y hxy hlen
      by_contra hgt
      have hnl' : nl.length ≤ 1 := by
        rcases hnl with rfl | ⟨rfl, -⟩ <;> simp
      have hP : (pre ++ (H ++ (ws ++ ['{']))) <+: x := by
        apply @List.prefix_of_prefix_length_le _ _ _ C
        · rw [hC]
          exact ⟨body ++ '\n' :: '}' :: (nl ++ post), by simp⟩
        · rw [hxy]
          exact List.prefix_append _ _
        · simp only [List.length_append, List.length_cons, List.length_nil] at hlen ⊢
          omega
      obtain ⟨x', rfl⟩ := hP
      apply hbody
      apply infix_of_append_eq body ('}' :: (nl ++ post)) x' y
      · have := hC.symm.trans hxy
        simpa using this
      · simp only [List.length_append, List.length_cons, List.length_nil] at hhi hgt hlen
        omega

theorem locator_non_greedy_witness :
    findBlock
        ("a.example.com".toList ++ " \x7b".toList ++
          "\n\timport common\n\treverse_proxy 10.0.0.1".toList ++ "\n\x7d\n".toList ++
          "\nb.example.com \x7b\n\timport common\n\treverse_proxy 10.0.0.2\n\x7d\n".toList)
        "a.example.com".toList = some (0, 57) :=
  (locator_non_greedy "a.example.com".toList
    "\n\timport common\n\treverse_proxy 10.0.0.1".toList
    "\nb.example.com \x7b\n\timport common\n\treverse_proxy 10.0.0.2\n\x7d\n".toList
    (by decide)).1

/-- C7 (anchoring, literal host): a located span starts at offset 0 or just
after a newline, and the text at its start is the host, character for
character; hence a host that stands at no line start of the content (it only
ends a longer name, sits inside a line, or differs in one character, as where the
content has another character for a dot of the host) is not found. -/
theorem locator_anchored_literal (C H : Text) :
    (∀ lo hi, findBlock C H = some (lo, hi) →
      (lo = 0 ∨ C[lo - 1]? = some '\n') ∧ (C.drop lo).take H.length = H) ∧
    ((∀ lo, (lo = 0 ∨ C[lo - 1]? = some '\n') → (C.drop lo).take H.length ≠ H) →
      findBlock C H = none) := by
  have main : ∀ lo hi, findBlock C H = some (lo, hi) →
      (lo = 0 ∨ C[lo - 1]? = some '\n') ∧ (C.drop lo).take H.length = H := by
    intro lo hi h
    obtain ⟨pre, ws, body, nl, post, hC, hlo, -, hpre, -⟩ := findBlock_shape C H lo hi h
    constructor
    · rcases hpre with rfl | hl
      · left
        simpa using hlo
      · right
        rcases List.eq_nil_or_concat pre with rfl | ⟨p, c, rfl⟩
        · simp at hl
        · simp at hl
          subst hl
          rw [hC, hlo]
          simp [List.getElem_append_right]
    · rw [hC, hlo]
      simp only [List.append_assoc, List.drop_left]
      exact List.take_left _ _
  refine ⟨main, fun hno => ?_⟩
  cases hf : findBlock C H with
  | none => rfl
  | some span =>
    obtain ⟨lo, hi⟩ := span
    exact absurd (main lo hi hf).2 (hno lo (main lo hi hf).1)

theorem locator_anchored_literal_witness :
    findBlock "x\na.b \x7b\n\x7d\n".toList "a.b".toList = some (2, 10) ∧
      ((2 = 0 ∨ "x\na.b \x7b\n\x7d\n".toList[2 - 1]? = some '\n') ∧
        ("x\na.b \x7b\n\x7d\n".toList.drop 2).take "a.b".toList.length = "a.b".toList) ∧
      findBlock "ba.b \x7b\n\x7d\n".toList "a.b".toList = none ∧
      findBlock "x a.b \x7b\n\x7d\n".toList "a.b".toList = none ∧
      findBlock "a-b \x7b\n\x7d\n".toList "a.b".toList = none :=
  ⟨by decide, (locator_anchored_literal _ "a.b".toList).1 2 10 (by decide),
    by decide, by decide, by decide⟩

/-! ## Claim on the reload sequence -/

/-- C9 (reload sequence): `reload` calls `docker` with `caddy fmt --overwrite`,
then `caddy validate --config`, then `caddy reload --config`, after the common
`exec` arguments; a step runs only if every earlier step succeeded; the first
failing step ends the run with that step's error; the run succeeds exactly
when the three steps succeed, and a run that succeeds has made the three calls. -/
theorem reload_sequence (flags : ReloadFlags) (exec : Exec) :
    fmtArgs flags = baseArgs flags ++ ["caddy", "fmt", "--overwrite", flags.config] ∧
    validateArgs flags = baseArgs flags ++ ["caddy", "validate", "--config", flags.config] ∧
    reloadArgs flags = baseArgs flags ++ ["caddy", "reload", "--config", flags.config] ∧
    (reloadRunE flags exec).calls <+:
      [⟨"docker", fmtArgs flags⟩, ⟨"docker", validateArgs flags⟩,
        ⟨"docker", reloadArgs flags⟩] ∧
    (reloadRunE flags exec).calls ≠ [] ∧
    (2 ≤ (reloadRunE flags exec).calls.length → exec [] ⟨"docker", fmtArgs flags⟩ = none) ∧
    (3 ≤ (reloadRunE flags exec).calls.length →
      exec [⟨"docker", fmtArgs flags⟩] ⟨"docker", validateArgs flags⟩ = none) ∧
    (∀ e, exec [] ⟨"docker", fmtArgs flags⟩ = some e →
      (reloadRunE flags exec).calls = [⟨"docker", fmtArgs flags⟩] ∧
      (reloadRunE flags exec).err = some (ReloadError.fmtFailed e)) ∧
    (∀ e, exec [] ⟨"docker", fmtArgs flags⟩ = none →
      exec [⟨"docker", fmtArgs flags⟩] ⟨"docker", validateArgs flags⟩ = some e →
      (reloadRunE flags exec).calls =
        [⟨"docker", fmtArgs flags⟩, ⟨"docker", validateArgs flags⟩] ∧
      (reloadRunE flags exec).err = some (ReloadError.validateFailed e)) ∧
    (∀ e, exec [] ⟨"docker", fmtArgs flags⟩ = none →
      exec [⟨"docker", fmtArgs flags⟩] ⟨"docker", validateArgs flags⟩ = none →
      exec [⟨"docker", fmtArgs flags⟩, ⟨"docker", validateArgs flags⟩]
        ⟨"docker", reloadArgs flags⟩ = some e →
      (reloadRunE flags exec).calls =
        [⟨"docker", fmtArgs flags⟩, ⟨"docker", validateArgs flags⟩,
          ⟨"docker", reloadArgs flags⟩] ∧
      (reloadRunE flags exec).err = some (ReloadError.reloadFailed e)) ∧
    ((reloadRunE flags exec).err = none ↔
      exec [] ⟨"docker", fmtArgs flags⟩ = none ∧
      exec [⟨"docker", fmtArgs flags⟩] ⟨"docker", validateArgs flags⟩ = none ∧
      exec [⟨"docker", fmtArgs flags⟩, ⟨"docker", validateArgs flags⟩]
        ⟨"docker", reloadArgs flags⟩ = none) ∧
    ((reloadRunE flags exec).err = none →
      (reloadRunE flags exec).calls =
        [⟨"docker", fmtArgs flags⟩, ⟨"docker", validateArgs flags⟩,
          ⟨"docker", reloadArgs flags⟩]) ∧
    (exec [] ⟨"docker", fmtArgs flags⟩ = none →
      exec [⟨"docker", fmtArgs flags⟩] ⟨"docker", validateArgs flags⟩ = none →
      exec [⟨"docker", fmtArgs flags⟩, ⟨"docker", validateArgs flags⟩]
        ⟨"docker", reloadArgs flags⟩ = none →
      (reloadRunE flags exec).calls =
        [⟨"docker", fmtArgs flags⟩, ⟨"docker", validateArgs flags⟩,
          ⟨"docker", reloadArgs flags⟩] ∧
      (reloadRunE flags exec).err = none) := by
  refine ⟨rfl, rfl, rfl, ?_⟩
  cases h1 : exec [] ⟨"docker", fmtArgs flags⟩ with
  | some e1 => simp [reloadRunE, h1, List.cons_prefix_cons]
  | none =>
    cases h2 : exec [⟨"docker", fmtArgs flags⟩] ⟨"docker", validateArgs flags⟩ with
    | some e2 => simp [reloadRunE, h1, h2, List.cons_prefix_cons]
    | none =>
      cases h3 : exec [⟨"docker", fmtArgs flags⟩, ⟨"docker", validateArgs flags⟩]
          ⟨"docker", reloadArgs flags⟩ with
      | some e3 => simp [reloadRunE, h1, h2, h3]
      | none => simp [reloadRunE, h1, h2, h3]

theorem reload_sequence_example :
    ((reloadRunE ⟨"caddy", "/etc/caddy/Caddyfile", true, false⟩
        (fun done _ => if done.length = 1 then some "exit status 1" else none)).calls =
      [⟨"docker", ["exec", "-i", "-t", "caddy", "caddy", "fmt", "--overwrite",
          "/etc/caddy/Caddyfile"]⟩,
        ⟨"docker", ["exec", "-i", "-t", "caddy", "caddy", "validate", "--config",
          "/etc/caddy/Caddyfile"]⟩] ∧
    (reloadRunE ⟨"caddy", "/etc/caddy/Caddyfile", true, false⟩
        (fun done _ => if done.length = 1 then some "exit status 1" else none)).err =
      some (ReloadError.validateFailed "exit status 1")) ∧
    ((reloadRunE ⟨"caddy", "/etc/caddy/Caddyfile", false, true⟩ (fun _ _ => none)).err = none ∧
      (reloadRunE ⟨"caddy", "/etc/caddy/Caddyfile", false, true⟩ (fun _ _ => none)).calls =
        [⟨"docker", ["exec", "-i", "caddy", "caddy", "fmt", "--overwrite",
            "/etc/caddy/Caddyfile"]⟩,
          ⟨"docker", ["exec", "-i", "caddy", "caddy", "validate", "--config",
            "/etc/caddy/Caddyfile"]⟩,
          ⟨"docker", ["exec", "-i", "caddy", "caddy", "reload", "--config",
            "/etc/caddy/Caddyfile"]⟩]) :=
  ⟨by decide,
    ((reload_sequence ⟨"caddy", "/etc/caddy/Caddyfile", false, true⟩
      (fun _ _ => none)).2.2.2.2.2.2.2.2.2.2.2.2 rfl rfl rfl).2,
    ((reload_sequence ⟨"caddy", "/etc/caddy/Caddyfile", false, true⟩
      (fun _ _ => none)).2.2.2.2.2.2.2.2.2.2.2.2 rfl rfl rfl).1⟩

/-! ## The duplicate-upstream scanner -/

theorem matchStar_rest_suffix (p : Char → Bool) (g : Bool)
    (k : Option Char → Text → Option MState)
    (hk : ∀ prev r s, k prev r = some s → s.rest <:+ r)
    (prev : Option Char) (rest : Text) (s : MState)
    (h : matchStar p g k prev rest = some s) : s.rest <:+ rest := by
  induction rest generalizing prev with
  | nil =>
    rw [matchStar] at h
    exact hk _ _ _ h
  | cons c cs ih =>
    rw [matchStar] at h
    split at h
    · split at h
      · cases h1 : matchStar p g k (some c) cs with
        | some s1 =>
          rw [h1] at h
          simp only [Option.orElse, Option.some.injEq] at h
          subst h
          exact (ih _ h1).trans (List.suffix_cons _ _)
        | none =>
          rw [h1] at h
          exact hk _ _ _ h
      · cases h1 : k prev (c :: cs) with
        | some s1 =>
          rw [h1] at h
          simp only [Option.orElse, Option.some.injEq] at h
          subst h
          exact hk _ _ _ h1
        | none =>
          rw [h1] at h
          exact (ih _ h).trans (List.suffix_cons _ _)
    · exact hk _ _ _ h

theorem matchItems_rest_suffix (re : List Item) (s s1 : MState)
    (h : matchItems re s = some s1) : s1.rest <:+ s.rest := by
  induction re generalizing s s1 with
  | nil =>
    simp only [matchItems, Option.some.injEq] at h
    subst h
    exact List.suffix_refl _
  | cons it r ih =>
    obtain ⟨prev, rest, lo, hi⟩ := s
    cases it with
    | bol =>
      rw [matchItems] at h
      split at h
      · exact ih _ _ h
      · simp at h
    | bot =>
      rw [matchItems] at h
      split at h
      · exact ih _ _ h
      · simp at h
    | eot =>
      rw [matchItems] at h
      split at h
      · exact ih _ _ h
      · simp at h
    | lit c =>
      cases rest with
      | nil => simp [matchItems] at h
      | cons d ds =>
        simp only [matchItems] at h
        split at h
        · exact (ih _ _ h).trans (List.suffix_cons _ _)
        · simp at h
    | cls p =>
      cases rest with
      | nil => simp [matchItems] at h
      | cons d ds =>
        simp only [matchItems] at h
        split at h
        · exact (ih _ _ h).trans (List.suffix_cons _ _)
        · simp at h
    | star p g =>
      rw [matchItems] at h
      exact matchStar_rest_suffix p g _ (fun prev r s hs => ih ⟨prev, r, lo, hi⟩ s hs) _ _ _ h
    | opt p g =>
      cases rest with
      | nil =>
        simp only [matchItems] at h
        exact ih _ _ h
      | cons d ds =>
        simp only [matchItems] at h
        split at h
        · split at h
          · cases h1 : matchItems r ⟨some d, ds, lo, hi⟩ with
            | some s2 =>
              rw [h1] at h
              simp only [Option.orElse, Option.some.injEq] at h
              subst h
              exact (ih _ _ h1).trans (List.suffix_cons _ _)
            | none =>
              rw [h1] at h
              exact ih _ _ h
          · cases h1 : matchItems r ⟨prev, d :: ds, lo, hi⟩ with
            | some s2 =>
              rw [h1] at h
              simp only [Option.orElse, Option.some.injEq] at h
              subst h
              exact ih _ _ h1
            | none =>
              rw [h1] at h
              exact (ih _ _ h).trans (List.suffix_cons _ _)
        · exact ih _ _ h
    | capOpen =>
      rw [matchItems] at h
      have := ih _ _ h
      exact this
    | capClose =>
      rw [matchItems] at h
      have := ih _ _ h
      exact this

theorem searchFrom_some (re : List Item) (prev : Option Char) (rest a : Text) (s : MState)
    (h : searchFrom re prev rest = some (a, s)) :
    a <:+ rest ∧ ∃ p, matchItems re ⟨p, a, a, a⟩ = some s := by
  induction rest generalizing prev with
  | nil =>
    simp only [searchFrom, Option.map_eq_some', Prod.mk.injEq] at h
    obtain ⟨s', h1, rfl, rfl⟩ := h
    exact ⟨List.suffix_refl _, prev, h1⟩
  | cons c cs ih =>
    rw [searchFrom] at h
    cases h1 : matchItems re ⟨prev, c :: cs, c :: cs, c :: cs⟩ with
    | some s' =>
      rw [h1] at h
      simp only [Option.some.injEq, Prod.mk.injEq] at h
      obtain ⟨rfl, rfl⟩ := h
      exact ⟨List.suffix_refl _, prev, h1⟩
    | none =>
      rw [h1] at h
      obtain ⟨h2, h3⟩ := ih _ h
      exact ⟨h2.trans (List.suffix_cons _ _), h3⟩

theorem findAllFrom_mem (re : List Item) (fuel : Nat) (prev : Option Char) (rest : Text)
    (prevEnd : Option Nat) (s : MState) (h : s ∈ findAllFrom re fuel prev rest prevEnd) :
    ∃ p a, a <:+ rest ∧ matchItems re ⟨p, a, a, a⟩ = some s := by
  induction fuel generalizing prev rest prevEnd with
  | zero => simp [findAllFrom] at h
  | succ n ih =>
    rw [findAllFrom] at h
    cases h1 : searchFrom re prev rest with
    | none =>
      rw [h1] at h
      simp at h
    | some r =>
      obtain ⟨a, s1⟩ := r
      rw [h1] at h
      obtain ⟨ha, p, hm⟩ := searchFrom_some re prev rest a s1 h1
      have hs1 : s1.rest <:+ rest := (matchItems_rest_suffix re _ _ hm).trans ha
      simp only [] at h
      have htail : ∀ pe, s ∈ (match rest with
          | [] => []
          | c :: cs => findAllFrom re n (some c) cs pe) →
          ∃ p a, a <:+ rest ∧ matchItems re ⟨p, a, a, a⟩ = some s := by
        intro pe hmem
        cases rest with
        | nil => simp at hmem
        | cons c cs =>
          obtain ⟨p', a', h2, h3⟩ := ih _ _ _ hmem
          exact ⟨p', a', h2.trans (List.suffix_cons _ _), h3⟩
      split at h
      · split at h
        · exact htail _ h
        · rcases List.mem_cons.1 h with rfl | h
          · exact ⟨p, a, ha, hm⟩
          · exact htail _ h
      · rcases List.mem_cons.1 h with rfl | h
        · exact ⟨p, a, ha, hm⟩
        · obtain ⟨p', a', h2, h3⟩ := ih _ _ _ h
          exact ⟨p', a', h2.trans hs1, h3⟩

theorem findAllFrom_fuel (re : List Item) (n m : Nat) (prev : Option Char) (rest : Text)
    (prevEnd : Option Nat) (hn : rest.length < n) (hm : rest.length < m) :
    findAllFrom re n prev rest prevEnd = findAllFrom re m prev rest prevEnd := by
  induction n generalizing m prev rest prevEnd with
  | zero => omega
  | succ n ih =>
    cases m with
    | zero => omega
    | succ m =>
      rw [findAllFrom, findAllFrom]
      cases h1 : searchFrom re prev rest with
      | none => rfl
      | some r =>
        obtain ⟨a, s1⟩ := r
        obtain ⟨ha, p, hmatch⟩ := searchFrom_some re prev rest a s1 h1
        have hs1 : s1.rest <:+ rest := (matchItems_rest_suffix re _ _ hmatch).trans ha
        simp only []
        by_cases he : s1.rest.length = rest.length
        · simp only [he, if_true]
          cases rest with
          | nil => rfl
          | cons c cs =>
            simp only [List.length_cons] at hn hm
            dsimp only
            rw [ih m (some c) cs _ (by omega) (by omega)]
        · simp only [he, if_false]
          have hlen := hs1.length_le
          rw [ih m s1.prev s1.rest _ (by omega) (by omega)]

theorem matchStar_greedy_total (p : Char → Bool) (k : Option Char → Text → Option MState)
    (hk : ∀ prev r, (k prev r).isSome = true) (prev : Option Char) (rest : Text) :
    matchStar p true k prev rest = k (lastOr prev (rest.takeWhile p)) (rest.dropWhile p) := by
  induction rest generalizing prev with
  | nil => simp [matchStar, lastOr]
  | cons c cs ih =>
    by_cases hc : p c = true
    · simp only [matchStar, hc, if_true, ih, List.takeWhile_cons_of_pos,
        List.dropWhile_cons_of_pos, lastOr]
      have := hk (lastOr (some c) (List.takeWhile p cs)) (List.dropWhile p cs)
      cases hk' : k (lastOr (some c) (List.takeWhile p cs)) (List.dropWhile p cs) with
      | none => simp [hk'] at this
      | some s => rfl
    · simp [matchStar, hc, lastOr, List.takeWhile, List.dropWhile]

theorem head_dropWhile (p : Char → Bool) (l : Text) (c : Char)
    (h : (l.dropWhile p).head? = some c) : p c = false := by
  induction l with
  | nil => simp at h
  | cons d ds ih =>
    by_cases hd : p d = true
    · rw [List.dropWhile_cons_of_pos hd] at h
      exact ih h
    · rw [List.dropWhile_cons_of_neg hd] at h
      simp only [List.head?_cons, Option.some.injEq] at h
      subst h
      simpa using hd

theorem take_sub_dropWhile (p : Char → Bool) (l : Text) :
    l.take (l.length - (l.dropWhile p).length) = l.takeWhile p := by
  have h := List.takeWhile_append_dropWhile p l
  have hl : l.length - (l.dropWhile p).length = (l.takeWhile p).length := by
    have := congrArg List.length h
    simp only [List.length_append] at this
    omega
  rw [hl]
  calc l.take (l.takeWhile p).length
      = (l.takeWhile p ++ l.dropWhile p).take (l.takeWhile p).length := by rw [h]
    _ = l.takeWhile p := List.take_left _ _

theorem matchItems_ipRe (p : Option Char) (a lo hi : Text) (s : MState)
    (h : matchItems ipRe ⟨p, a, lo, hi⟩ = some s) :
    ∃ ws tok post, a = "reverse_proxy".toList ++ (ws ++ (tok ++ post)) ∧ ws ≠ [] ∧
      AllSpace ws ∧ tok ≠ [] ∧ (∀ c ∈ tok, isReSpace c = false ∧ c ≠ '}') ∧
      (∀ c, post.head? = some c → isReSpace c = true ∨ c = '}') ∧ capture s = tok := by
  rw [ipRe, matchItems_lits] at h
  cases hs : stripLit "reverse_proxy".toList a with
  | none =>
    rw [hs] at h
    simp at h
  | some r =>
    have ha := (stripLit_eq_some _ _ _).1 hs
    rw [hs] at h
    simp only [] at h
    cases r with
    | nil => simp [matchItems] at h
    | cons d ds =>
      rw [matchItems] at h
      simp only [] at h
      split at h
      · rename_i hd
        rw [matchItems, matchStar_greedy_skip] at h
        · simp only [] at h
          rw [matchItems] at h
          simp only [] at h
          cases hr : List.dropWhile isReSpace ds with
          | nil => simp [hr, matchItems] at h
          | cons e es =>
            rw [hr, matchItems] at h
            simp only [] at h
            split at h
            · rename_i he
              rw [matchItems, matchStar_greedy_total] at h
              · simp only [matchItems, Option.some.injEq] at h
                refine ⟨d :: List.takeWhile isReSpace ds,
                  e :: List.takeWhile (fun c => !isReSpace c && !(c = '}')) es,
                  List.dropWhile (fun c => !isReSpace c && !(c = '}')) es, ?_, by simp, ?_, by simp,
                  ?_, ?_, ?_⟩
                · rw [ha]
                  simp only [List.cons_append, List.takeWhile_append_dropWhile, ← hr]
                · intro c hc
                  rcases List.mem_cons.1 hc with rfl | hc
                  · exact hd
                  · exact List.mem_takeWhile_imp hc
                · intro c hc
                  have : (!isReSpace c && !(c = '}')) = true := by
                    rcases List.mem_cons.1 hc with rfl | hc
                    · exact he
                    · exact @List.mem_takeWhile_imp _ (fun c => !isReSpace c && !(c = '}')) _ _ hc
                  simpa using this
                · intro c hc
                  have := head_dropWhile _ _ _ hc
                  simp only [Bool.and_eq_false_imp, Bool.not_eq_eq_eq_not, Bool.not_true,
                    Bool.not_eq_true', Bool.not_false, decide_eq_true_eq] at this
                  by_cases hsp : isReSpace c = true
                  · exact Or.inl hsp
                  · exact Or.inr (this (by simpa using hsp))
                · subst h
                  have := take_sub_dropWhile (fun c => !isReSpace c && !(c = '}')) (e :: es)
                  rw [@List.dropWhile_cons_of_pos _ (fun c => !isReSpace c && !(c = '}')) _ _ he,
                    @List.takeWhile_cons_of_pos _ (fun c => !isReSpace c && !(c = '}')) _ _ he] at this
                  exact this
              · intro prev r
                simp [matchItems]
            · simp at h
        · intro prev c cs hc
          simp [matchItems, hc]
      · simp at h

/-- C8 (exact match only): the scanner warns only if the content holds
`reverse_proxy`, then at least one white-space character, then a token equal to
the whole upstream, where the token is a maximal run of characters that are
neither white space nor `}` (it is preceded by white space and followed by white
space, by `}` or by the end of the content). -/
theorem duplicate_scanner_exact (C U : Text) (h : upstreamAlreadyUsed C U = true) :
    ∃ pre ws post, C = pre ++ "reverse_proxy".toList ++ ws ++ U ++ post ∧
      ws ≠ [] ∧ (∀ c ∈ ws, isReSpace c = true) ∧
      U ≠ [] ∧ (∀ c ∈ U, isReSpace c = false ∧ c ≠ '}') ∧
      (∀ c, post.head? = some c → isReSpace c = true ∨ c = '}') := by
  unfold upstreamAlreadyUsed findAllUpstreams at h
  obtain ⟨s, hs, hcap⟩ := List.any_eq_true.1 h
  obtain ⟨p, a, ⟨pre, ha⟩, hm⟩ := findAllFrom_mem _ _ _ _ _ _ hs
  obtain ⟨ws, tok, post, h1, h2, h3, h4, h5, h6, h7⟩ := matchItems_ipRe p a a a s hm
  have htok : tok = U := by
    rw [← h7]
    simpa using hcap
  subst htok
  refine ⟨pre, ws, post, ?_, h2, h3, h4, h5, h6⟩
  rw [← ha, h1]
  simp

theorem duplicate_scanner_exact_witness :
    upstreamAlreadyUsed "reverse_proxy 10.0.0.5".toList "10.0.0.5".toList = true ∧
      (∃ pre ws post,
        "reverse_proxy 10.0.0.5".toList =
          pre ++ "reverse_proxy".toList ++ ws ++ "10.0.0.5".toList ++ post ∧
        ws ≠ [] ∧ (∀ c ∈ ws, isReSpace c = true) ∧
        "10.0.0.5".toList ≠ [] ∧ (∀ c ∈ "10.0.0.5".toList, isReSpace c = false ∧ c ≠ '}') ∧
        (∀ c, post.head? = some c → isReSpace c = true ∨ c = '}')) ∧
      upstreamAlreadyUsed "reverse_proxy 10.0.0.5".toList "10.0.0.5:8080".toList = false ∧
      upstreamAlreadyUsed "reverse_proxy 10.0.0.5:8080".toList "10.0.0.5".toList = false :=
  ⟨by decide,
    duplicate_scanner_exact "reverse_proxy 10.0.0.5".toList "10.0.0.5".toList (by decide),
    by decide, by decide⟩

/-! ## A second upsert for the same host -/

theorem findBlock_isSome_of_blockAt (H pre a : Text)
    (h : (blockAt H (lastOr none pre) a).isSome = true) :
    (findBlock (pre ++ a) H).isSome = true := by
  cases hf : findBlock (pre ++ a) H with
  | some x => rfl
  | none =>
    have := (findBlock_eq_none _ _).1 hf pre a rfl
    rw [this] at h
    simp at h

theorem desiredBlock_eq (H U Y : Text) :
    desiredBlock H U ++ Y =
      H ++ ([' '] ++ '{' :: (("\n\timport common\n\treverse_proxy ".toList ++ U) ++
        '\n' :: '}' :: ('\n' :: Y))) := by
  simp [desiredBlock]

theorem blockAt_desired_isSome (H U Y : Text) (prev : Option Char) (hl : LineStart prev) :
    (blockAt H prev (desiredBlock H U ++ Y)).isSome = true := by
  unfold blockAt
  have ho : openAt H prev (desiredBlock H U ++ Y) =
      some (("\n\timport common\n\treverse_proxy ".toList ++ U) ++ '\n' :: '}' :: ('\n' :: Y)) := by
    rw [openAt_eq_some]
    refine ⟨hl, [' '], desiredBlock_eq H U Y, ?_⟩
    intro c hc
    simp only [List.mem_singleton] at hc
    subst hc
    decide
  rw [ho, Option.some_bind]
  cases hc : afterClose (("\n\timport common\n\treverse_proxy ".toList ++ U) ++
      '\n' :: '}' :: ('\n' :: Y)) with
  | some r => rfl
  | none =>
    exfalso
    exact (afterClose_eq_none _).1 hc
      ⟨"\n\timport common\n\treverse_proxy ".toList ++ U, '\n' :: Y, by simp⟩

theorem lineStart_concat_newline (prev : Option Char) (p : Text) :
    LineStart (lastOr prev (p ++ ['\n'])) := by
  rw [lastOr_concat]
  exact Or.inr rfl

theorem upsert_written_located (C H U : Text) (force : Bool) (C1 : Text)
    (h : (upsert C H U force).written = some C1) : (findBlock C1 H).isSome = true := by
  unfold upsert at h
  cases hf : findBlock C H with
  | some span =>
    obtain ⟨lo, hi⟩ := span
    simp only [hf] at h
    cases force with
    | false => simp [Decision.written] at h
    | true =>
      simp only [Bool.not_true, Bool.false_eq_true, if_false, Decision.written,
        Option.some.injEq] at h
      obtain ⟨pre, a, r, hC, hlo, -, hb, -⟩ := (findBlock_eq_some _ _ _ _).1 hf
      have hl : LineStart (lastOr none pre) := ((blockAt_eq_some _ _ _ _).1 hb).1
      have htake : C.take lo = pre := by
        rw [hC, hlo]
        exact List.take_left _ _
      rw [← h, htake, List.append_assoc]
      exact findBlock_isSome_of_blockAt _ _ _ (blockAt_desired_isSome _ _ _ _ hl)
  | none =>
    simp only [hf] at h
    split at h
    · simp only [Decision.written, Option.some.injEq] at h
      rw [← h]
      have := findBlock_isSome_of_blockAt H [] (desiredBlock H U ++ [])
        (blockAt_desired_isSome _ _ _ _ (Or.inl rfl))
      simpa using this
    · simp only [Decision.written, Option.some.injEq] at h
      rw [← h]
      have hls : LineStart (lastOr none (trimRightNewlines C ++ "\n\n".toList)) := by
        have := lineStart_concat_newline none (trimRightNewlines C ++ ['\n'])
        simpa using this
      have := findBlock_isSome_of_blockAt H (trimRightNewlines C ++ "\n\n".toList)
        (desiredBlock H U ++ []) (blockAt_desired_isSome _ _ _ _ hls)
      simpa using this

theorem newEntryWrite_ok (force : Bool) (io : Faults) (files : Files)
    (path C H U : Text) (h : (newEntryWrite force io files path C H U).err = none) :
    ∃ C1, (upsert C H U force).written = some C1 ∧
      (newEntryWrite force io files path C H U).files path = some C1 := by
  unfold newEntryWrite at h ⊢
  cases hu : upsert C H U force with
  | conflict => simp [hu] at h
  | replaced c =>
    simp only [hu] at h ⊢
    cases hw : io.write with
    | some e => simp [hw] at h
    | none => exact ⟨c, rfl, by simp⟩
  | added c =>
    simp only [hu] at h ⊢
    cases hw : io.write with
    | some e => simp [hw] at h
    | none => exact ⟨c, rfl, by simp⟩

theorem newEntryRunE_ok (flags : Flags) (io : Faults) (files : Files) (label H U : Text)
    (h : (newEntryRunE flags io files label H U).err = none) :
    isSafeFilename label = true ∧ hostMatch H = true ∧
      ∃ C C1, (upsert C H U flags.force).written = some C1 ∧
        (newEntryRunE flags io files label H U).files
          (labelPath flags.dir flags.ext label) = some C1 := by
  unfold newEntryRunE at h ⊢
  by_cases h1 : isSafeFilename label = true
  swap
  · simp [h1] at h
  by_cases h2 : hostMatch H = true
  swap
  · simp [h1, h2] at h
  by_cases h3 : trimSpace U = []
  · simp [h1, h2, h3] at h
  simp only [h1, h2, h3, Bool.not_true, Bool.false_eq_true, if_false] at h ⊢
  refine ⟨trivial, trivial, ?_⟩
  cases hm : io.mkdir with
  | some e => simp [hm] at h
  | none =>
    simp only [hm] at h ⊢
    cases hr : io.read with
    | some e => simp [hr] at h
    | none =>
      simp only [hr] at h ⊢
      cases hfile : files (labelPath flags.dir flags.ext label) with
      | some b =>
        simp only [hfile] at h ⊢
        obtain ⟨C1, hw, hfs⟩ := newEntryWrite_ok _ _ _ _ _ _ _ h
        exact ⟨b, C1, hw, hfs⟩
      | none =>
        simp only [hfile] at h ⊢
        cases hc : io.create with
        | some e => simp [hc] at h
        | none =>
          simp only [hc] at h ⊢
          obtain ⟨C1, hw, hfs⟩ := newEntryWrite_ok _ _ _ _ _ _ _ h
          exact ⟨[], C1, hw, hfs⟩

theorem newEntryRunE_conflict (dir ext : Text) (io : Faults) (files : Files)
    (label H U C1 : Text) (h1 : isSafeFilename label = true) (h2 : hostMatch H = true)
    (h3 : trimSpace U ≠ []) (hm : io.mkdir = none) (hr : io.read = none)
    (hfile : files (labelPath dir ext label) = some C1)
    (hloc : (findBlock C1 H).isSome = true) :
    (newEntryRunE ⟨dir, ext, false⟩ io files label H U).err =
        some (EntryError.conflict H (labelPath dir ext label)) ∧
      (newEntryRunE ⟨dir, ext, false⟩ io files label H U).files = files := by
  obtain ⟨span, hspan⟩ := Option.isSome_iff_exists.1 hloc
  simp [newEntryRunE, h1, h2, h3, hm, hr, hfile, newEntryWrite, upsert, hspan]

/-- C3 (conflict without force): after a run of `newEntry` for host `H` that
returned no error, the host is valid and the label file holds a content in
which the locator finds a block for `H`, so that the upsert without force is a
conflict whatever the upstream; a second run for the same label and host with force unset, any
non-blank upstream, and a directory and file that can be read, returns the
conflict error and leaves every file as the first run left it. -/
theorem conflict_without_force (flags : Flags) (io1 io2 : Faults) (files : Files)
    (label H U U2 : Text)
    (h : (newEntryRunE flags io1 files label H U).err = none)
    (hU : trimSpace U2 ≠ []) (hm : io2.mkdir = none) (hr : io2.read = none) :
    hostMatch H = true ∧
    (∃ C1, (newEntryRunE flags io1 files label H U).files
        (labelPath flags.dir flags.ext label) = some C1 ∧
      (findBlock C1 H).isSome = true ∧
      ∀ U3, upsert C1 H U3 false = Decision.conflict) ∧
    (newEntryRunE ⟨flags.dir, flags.ext, false⟩ io2
        (newEntryRunE flags io1 files label H U).files label H U2).err =
      some (EntryError.conflict H (labelPath flags.dir flags.ext label)) ∧
    (newEntryRunE ⟨flags.dir, flags.ext, false⟩ io2
        (newEntryRunE flags io1 files label H U).files label H U2).files =
      (newEntryRunE flags io1 files label H U).files := by
  obtain ⟨h1, h2, C, C1, hw, hfs⟩ := newEntryRunE_ok flags io1 files label H U h
  have hloc := upsert_written_located C H U flags.force C1 hw
  have hconf : ∀ U3, upsert C1 H U3 false = Decision.conflict := by
    intro U3
    obtain ⟨span, hspan⟩ := Option.isSome_iff_exists.1 hloc
    simp [upsert, hspan]
  exact ⟨h2, ⟨C1, hfs, hloc, hconf⟩,
    newEntryRunE_conflict flags.dir flags.ext io2 _ label H U2 C1 h1 h2 hU hm hr hfs hloc⟩

theorem conflict_without_force_witness :
    (newEntryRunE ⟨"/srv/proxy/sites".toList, ".caddy".toList, false⟩ ⟨none, none, none, none⟩
        (fun _ => none) "web".toList "a.example.com".toList "10.0.0.1".toList).err = none ∧
    labelPath "/srv/proxy/sites".toList ".caddy".toList "web".toList =
      "/srv/proxy/sites/web.caddy".toList ∧
    (newEntryRunE ⟨"/srv/proxy/sites".toList, ".caddy".toList, false⟩ ⟨none, none, none, none⟩
        (newEntryRunE ⟨"/srv/proxy/sites".toList, ".caddy".toList, false⟩
          ⟨none, none, none, none⟩ (fun _ => none) "web".toList "a.example.com".toList
          "10.0.0.1".toList).files
        "web".toList "a.example.com".toList "10.0.0.2".toList).err =
      some (EntryError.conflict "a.example.com".toList
        (labelPath "/srv/proxy/sites".toList ".caddy".toList "web".toList)) ∧
    (newEntryRunE ⟨"/srv/proxy/sites".toList, ".caddy".toList, false⟩ ⟨none, none, none, none⟩
        (newEntryRunE ⟨"/srv/proxy/sites".toList, ".caddy".toList, false⟩
          ⟨none, none, none, none⟩ (fun _ => none) "web".toList "a.example.com".toList
          "10.0.0.1".toList).files
        "web".toList "a.example.com".toList "10.0.0.2".toList).files =
      (newEntryRunE ⟨"/srv/proxy/sites".toList, ".caddy".toList, false⟩
        ⟨none, none, none, none⟩ (fun _ => none) "web".toList "a.example.com".toList
        "10.0.0.1".toList).files :=
  ⟨by decide, by decide,
    (conflict_without_force ⟨"/srv/proxy/sites".toList, ".caddy".toList, false⟩
      ⟨none, none, none, none⟩ ⟨none, none, none, none⟩ (fun _ => none) "web".toList
      "a.example.com".toList "10.0.0.1".toList "10.0.0.2".toList
      (by decide) (by decide) rfl rfl).2.2⟩

/-! ## Idempotence under force -/

theorem searchFrom_hostRe_later (c : Char) (rest : Text) :
    searchFrom hostRe (some c) rest = none := by
  induction rest generalizing c with
  | nil => simp [searchFrom, hostRe, matchItems]
  | cons d ds ih =>
    have := ih d
    rw [hostRe] at this
    simp [searchFrom, hostRe, matchItems, this]

theorem hostMatch_valid (H : Text) (h : hostMatch H = true) :
    H ≠ [] ∧ ∀ c ∈ H, isHostChar c = true := by
  unfold hostMatch at h
  cases H with
  | nil => simp [searchFrom, hostRe, matchItems] at h
  | cons c cs =>
    refine ⟨by simp, ?_⟩
    rw [searchFrom] at h
    cases hm : matchItems hostRe ⟨none, c :: cs, c :: cs, c :: cs⟩ with
    | none =>
      rw [hm] at h
      simp [searchFrom_hostRe_later] at h
    | some s =>
      rw [hostRe, matchItems] at hm
      simp only [true_or, if_true] at hm
      rw [matchItems] at hm
      simp only [] at hm
      split at hm
      · rename_i hc
        rw [matchItems, matchStar_greedy_skip] at hm
        · simp only [matchItems] at hm
          split at hm
          · rename_i hd
            intro x hx
            rcases List.mem_cons.1 hx with rfl | hx
            · exact hc
            · by_contra hne
              have := List.dropWhile_eq_nil_iff.1 hd x hx
              exact hne this
          · simp at hm
        · intro prev d ds hd
          simp [matchItems]
      · simp at hm

theorem hostChar_not_space (c : Char) (h : isHostChar c = true) :
    isReSpace c = false ∧ c ≠ '{' ∧ c ≠ '\n' := by
  refine ⟨?_, ?_, ?_⟩
  · cases hs : isReSpace c with
    | false => rfl
    | true =>
      exfalso
      simp only [isReSpace, Bool.or_eq_true, decide_eq_true_eq] at hs
      rcases hs with (((rfl | rfl) | rfl) | rfl) | rfl <;> simp [isHostChar] at h
  · rintro rfl
    simp [isHostChar] at h
  · rintro rfl
    simp [isHostChar] at h

theorem openAt_brace_within (H q Y : Text) (prev : Option Char) (t : Text)
    (hH : H ≠ []) (hHc : ∀ c ∈ H, isHostChar c = true)
    (hq : q.getLast? = some '\n') (hY : H <+: Y)
    (h : openAt H prev (q ++ Y) = some t) :
    LineStart prev ∧ ∃ ws t1, AllSpace ws ∧ q = H ++ (ws ++ '{' :: t1) ∧ t = t1 ++ Y := by
  obtain ⟨hl, ws, he, hws⟩ := (openAt_eq_some _ _ _ _).1 h
  refine ⟨hl, ?_⟩
  obtain ⟨h0, hs, hH0⟩ : ∃ h0 hs, H = h0 :: hs := List.exists_cons_of_ne_nil hH
  obtain ⟨y, hy⟩ := hY
  have hh0 : isReSpace h0 = false ∧ h0 ≠ '{' ∧ h0 ≠ '\n' :=
    hostChar_not_space h0 (hHc h0 (by simp [hH0]))
  have hnl : '\n' ∉ H := fun hmem => (hostChar_not_space _ (hHc _ hmem)).2.2 rfl
  have hYh : Y = h0 :: (hs ++ y) := by rw [← hy, hH0]; rfl
  have he1 : q ++ Y = (H ++ ws) ++ '{' :: t := by rw [he, List.append_assoc]
  rcases List.append_eq_append_iff.1 he1 with ⟨a1, h1, h2⟩ | ⟨c1, h1, h2⟩
  · -- the opening brace would lie in `Y`
    exfalso
    have ha1 : AllSpace a1 := by
      rcases List.eq_nil_or_concat q with hq0 | ⟨q0, c, hq0⟩
      · rw [hq0] at hq
        simp at hq
      · rw [List.concat_eq_append] at hq0
        rw [hq0] at hq h1
        have hc : c = '\n' := by simpa using hq
        rw [hc] at h1
        have h1b : H ++ ws = q0 ++ '\n' :: a1 := by rw [h1]; simp
        rcases List.append_eq_append_iff.1 h1b with ⟨b1, -, h4⟩ | ⟨c2, h3, h4⟩
        · intro x hx
          exact hws x (by rw [h4]; simp [hx])
        · cases c2 with
          | nil =>
            rw [List.nil_append] at h4
            intro x hx
            exact hws x (by rw [← h4]; simp [hx])
          | cons c cs =>
            exfalso
            rw [List.cons_append] at h4
            have hc2 : c = '\n' := (List.cons.inj h4).1.symm
            apply hnl
            rw [h3, hc2]
            simp
    cases a1 with
    | nil =>
      rw [List.nil_append, hYh] at h2
      exact hh0.2.1 (List.cons.inj h2).1
    | cons a as =>
      rw [List.cons_append, hYh] at h2
      have h3 := ha1 a (List.mem_cons_self _ _)
      rw [← (List.cons.inj h2).1, hh0.1] at h3
      simp at h3
  · cases c1 with
    | nil =>
      exfalso
      rw [List.nil_append, hYh] at h2
      exact hh0.2.1 (List.cons.inj h2).1.symm
    | cons c cs =>
      rw [List.cons_append] at h2
      obtain ⟨hc, ht⟩ := List.cons.inj h2
      refine ⟨ws, cs, hws, ?_, ht⟩
      rw [h1, ← hc, List.append_assoc]

theorem blockAt_none_transfer (H q X Y : Text) (prev : Option Char)
    (hH : H ≠ []) (hHc : ∀ c ∈ H, isHostChar c = true)
    (hq : q.getLast? = some '\n') (hY : H <+: Y) (hX : ['\n', '}'] <:+: X)
    (h : blockAt H prev (q ++ X) = none) : blockAt H prev (q ++ Y) = none := by
  cases hb : blockAt H prev (q ++ Y) with
  | none => rfl
  | some r =>
    exfalso
    obtain ⟨t, ho, -⟩ := Option.bind_eq_some.1 hb
    obtain ⟨hl, ws, t1, hws, hq1, -⟩ := openAt_brace_within H q Y prev t hH hHc hq hY ho
    have ho2 : openAt H prev (q ++ X) = some (t1 ++ X) := by
      rw [openAt_eq_some]
      exact ⟨hl, ws, by rw [hq1]; simp, hws⟩
    unfold blockAt at h
    rw [ho2, Option.some_bind, afterClose_eq_none] at h
    exact h (hX.trans (List.suffix_append t1 X).isInfix)

theorem opensFrom_of_openAt (H : Text) (prev : Option Char) (pre a : Text)
    (h : (openAt H (lastOr prev pre) a).isSome = true) :
    opensFrom H prev (pre ++ a) = true := by
  induction pre generalizing prev with
  | nil =>
    cases a with
    | nil => simpa [opensFrom, lastOr] using h
    | cons c cs =>
      simp only [List.nil_append, opensFrom, Bool.or_eq_true]
      exact Or.inl h
  | cons c cs ih =>
    simp only [List.cons_append, opensFrom, Bool.or_eq_true]
    exact Or.inr (ih (some c) h)

theorem hasOpening_of_HasOpening (C H : Text) (h : HasOpening C H) :
    hasOpening C H = true := by
  obtain ⟨pre, ws, post, hC, hpre, hws⟩ := h
  rw [hC]
  apply opensFrom_of_openAt
  have : openAt H (lastOr none pre) (H ++ (ws ++ '{' :: post)) = some post :=
    (openAt_eq_some _ _ _ _).2 ⟨(lineStart_lastOr pre).2 hpre, ws, rfl, hws⟩
  rw [this]
  rfl

theorem afterClose_cons_ne (c : Char) (t : Text) (hc : c ≠ '\n') :
    afterClose (c :: t) = afterClose t := by
  rw [afterClose]
  cases t with
  | nil => simp [closeHere, afterClose]
  | cons d t => simp [closeHere, hc]

theorem afterClose_nl_ne (d : Char) (t : Text) (hd : d ≠ '}') :
    afterClose ('\n' :: d :: t) = afterClose (d :: t) := by
  rw [afterClose]
  simp [closeHere, hd]

theorem afterClose_body (Z : Text) :
    afterClose ("\n\timport common\n\treverse_proxy ".toList ++ Z) = afterClose Z := by
  simp [afterClose_cons_ne, afterClose_nl_ne]

theorem infix_concat_newline (U : Text) (h : ['\n', '}'] <:+: U ++ ['\n']) :
    ['\n', '}'] <:+: U := by
  obtain ⟨s, t, hst⟩ := h
  rcases List.eq_nil_or_concat t with rfl | ⟨t0, x, rfl⟩
  · exfalso
    have h1 : (s ++ ['\n']) ++ ['}'] = U ++ ['\n'] := by simpa using hst
    have := List.append_inj_right' h1 rfl
    simp at this
  · rw [List.concat_eq_append, ← List.append_assoc] at hst
    have := List.append_inj_left' hst rfl
    exact ⟨s, t0, this⟩

theorem blockAt_desired (H U Y : Text) (prev : Option Char) (hl : LineStart prev)
    (hU : ¬ ['\n', '}'] <:+: U) : blockAt H prev (desiredBlock H U ++ Y) = some Y := by
  unfold blockAt
  have ho : openAt H prev (desiredBlock H U ++ Y) =
      some (("\n\timport common\n\treverse_proxy ".toList ++ U) ++ '\n' :: '}' :: ('\n' :: Y)) := by
    rw [openAt_eq_some]
    refine ⟨hl, [' '], desiredBlock_eq H U Y, ?_⟩
    intro c hc
    simp only [List.mem_singleton] at hc
    subst hc
    decide
  rw [ho, Option.some_bind, List.append_assoc, afterClose_body, afterClose_eq_some]
  exact ⟨U, '\n' :: Y, rfl, by simp [dropNewline], fun h => hU (infix_concat_newline U h)⟩

theorem upsert_fixed (H U pre r : Text) (hU : ¬ ['\n', '}'] <:+: U)
    (hl : LineStart (lastOr none pre))
    (hearly : ∀ p q, pre = p ++ q → q ≠ [] →
      blockAt H (lastOr none p) (q ++ (desiredBlock H U ++ r)) = none) :
    upsert (pre ++ (desiredBlock H U ++ r)) H U true =
      Decision.replaced (pre ++ (desiredBlock H U ++ r)) := by
  have hf : findBlock (pre ++ (desiredBlock H U ++ r)) H =
      some (pre.length, pre.length + (desiredBlock H U).length) := by
    rw [findBlock_eq_some]
    refine ⟨pre, desiredBlock H U ++ r, r, rfl, rfl, ?_, blockAt_desired H U r _ hl hU, hearly⟩
    simp only [List.length_append]
    omega
  unfold upsert
  simp only [hf, Bool.not_true, Bool.false_eq_true, if_false]
  congr 1
  rw [List.take_left, ← List.append_assoc pre, List.drop_left' (by simp)]

theorem getLast_of_lineStart (p q : Text) (hq : q ≠ [])
    (hl : LineStart (lastOr none (p ++ q))) : q.getLast? = some '\n' := by
  rw [lastOr_append, lastOr_eq, if_neg hq] at hl
  rcases hl with hl | hl
  · exact absurd (List.getLast?_eq_none_iff.1 hl) hq
  · exact hl

theorem desiredBlock_starts (H U r : Text) : H <+: desiredBlock H U ++ r :=
  ⟨_, (desiredBlock_eq H U r).symm⟩

theorem upsert_replace_fixed (C H U : Text) (lo hi : Nat)
    (hH : H ≠ []) (hHc : ∀ c ∈ H, isHostChar c = true) (hU : ¬ ['\n', '}'] <:+: U)
    (hf : findBlock C H = some (lo, hi)) :
    upsert (C.take lo ++ desiredBlock H U ++ C.drop hi) H U true =
      Decision.replaced (C.take lo ++ desiredBlock H U ++ C.drop hi) := by
  obtain ⟨pre, a, r, hC, hlo, hhi, hb, hearly⟩ := (findBlock_eq_some _ _ _ _).1 hf
  obtain ⟨hl, ws, body, t, ha, -, hr, -⟩ := (blockAt_eq_some _ _ _ _).1 hb
  obtain ⟨nl, ht, -⟩ := dropNewline_spec t
  rw [← hr] at ht
  have htake : C.take lo = pre := by
    rw [hC, hlo]
    exact List.take_left _ _
  have hdrop : C.drop hi = r := by
    have hC2 : C = (pre ++ (H ++ (ws ++ '{' :: (body ++ '\n' :: '}' :: nl)))) ++ r := by
      rw [hC, ha, ht]
      simp
    rw [hhi]
    conv_lhs => rw [hC2]
    apply List.drop_left'
    simp only [List.length_append, List.length_cons]
    omega
  rw [htake, hdrop, List.append_assoc]
  apply upsert_fixed H U pre r hU hl
  intro p q hpq hq
  have hX : ['\n', '}'] <:+: a := by
    rw [ha]
    exact ⟨H ++ (ws ++ '{' :: body), t, by simp⟩
  exact blockAt_none_transfer H q a _ _ hH hHc
    (getLast_of_lineStart p q hq (hpq ▸ hl)) (desiredBlock_starts H U r) hX (hearly p q hpq hq)

theorem upsert_append_fixed (C H U : Text)
    (hH : H ≠ []) (hHc : ∀ c ∈ H, isHostChar c = true) (hU : ¬ ['\n', '}'] <:+: U)
    (hC : ¬ HasOpening C H) :
    upsert (trimRightNewlines C ++ "\n\n".toList ++ desiredBlock H U) H U true =
      Decision.replaced (trimRightNewlines C ++ "\n\n".toList ++ desiredBlock H U) := by
  obtain ⟨nls, hnls⟩ := List.rdropWhile_prefix (fun c => decide (c = '\n')) C
  have hT2 : trimRightNewlines C = List.rdropWhile (fun c => decide (c = '\n')) C := rfl
  rw [← hT2] at hnls
  generalize trimRightNewlines C = T at hnls ⊢
  have hl : LineStart (lastOr none (T ++ "\n\n".toList)) := by
    have := lineStart_concat_newline none (T ++ ['\n'])
    simpa using this
  have := upsert_fixed H U (T ++ "\n\n".toList) [] hU hl ?_
  · simpa using this
  intro p q hpq hq
  cases hb : blockAt H (lastOr none p) (q ++ (desiredBlock H U ++ [])) with
  | none => rfl
  | some r =>
    exfalso
    obtain ⟨t, ho, -⟩ := Option.bind_eq_some.1 hb
    obtain ⟨hlp, ws, t1, hws, hq1, -⟩ :=
      openAt_brace_within H q _ _ t hH hHc (getLast_of_lineStart p q hq (hpq ▸ hl))
        (desiredBlock_starts H U []) ho
    apply hC
    have he : T ++ ['\n', '\n'] = (p ++ (H ++ (ws ++ ['{']))) ++ t1 := by
      have : T ++ "\n\n".toList = p ++ q := hpq
      rw [hq1] at this
      simpa using this
    rcases List.append_eq_append_iff.1 he with ⟨a1, h1, h2⟩ | ⟨c1, h1, h2⟩
    · rcases List.eq_nil_or_concat a1 with rfl | ⟨a0, x, rfl⟩
      · refine ⟨p, ws, nls, ?_, (lineStart_lastOr p).1 hlp, hws⟩
        rw [← hnls]
        rw [List.append_nil] at h1
        rw [← h1]
        simp
      · exfalso
        rw [List.concat_eq_append] at h1 h2
        have hx : x = '{' := by
          have h3 : (p ++ (H ++ ws)) ++ ['{'] = (T ++ a0) ++ [x] := by simpa using h1
          have := List.append_inj_right' h3 rfl
          simpa using this.symm
        have hmem : x ∈ ['\n', '\n'] := by
          rw [h2]
          simp
        rw [hx] at hmem
        simp at hmem
    · refine ⟨p, ws, c1 ++ nls, ?_, (lineStart_lastOr p).1 hlp, hws⟩
      rw [← hnls, h1]
      simp

/-- C4, as stated, fails.  With the content `h {` (an opening line that is
never closed), host `h` and upstream `u`, the first forced upsert appends a
block and the second one replaces everything from the old opening line on, so
the two contents differ.  With the empty content, host `h` and an upstream that
holds a newline followed by `}`, the second upsert leaves a stray `}` line.
With the content `h` and the empty host the second upsert eats a blank line. -/
theorem force_idempotence_counterexample :
    ((upsert "h \x7b".toList "h".toList "u".toList true).written =
        some "h \x7b\n\nh \x7b\n\timport common\n\treverse_proxy u\n\x7d\n".toList ∧
      (upsert "h \x7b\n\nh \x7b\n\timport common\n\treverse_proxy u\n\x7d\n".toList
          "h".toList "u".toList true).written =
        some "h \x7b\n\timport common\n\treverse_proxy u\n\x7d\n".toList ∧
      "h \x7b\n\nh \x7b\n\timport common\n\treverse_proxy u\n\x7d\n".toList ≠
        "h \x7b\n\timport common\n\treverse_proxy u\n\x7d\n".toList) ∧
    ((upsert "".toList "h".toList "u\n\x7d".toList true).written =
        some "h \x7b\n\timport common\n\treverse_proxy u\n\x7d\n\x7d\n".toList ∧
      (upsert "h \x7b\n\timport common\n\treverse_proxy u\n\x7d\n\x7d\n".toList
          "h".toList "u\n\x7d".toList true).written =
        some "h \x7b\n\timport common\n\treverse_proxy u\n\x7d\n\x7d\n\x7d\n".toList ∧
      "h \x7b\n\timport common\n\treverse_proxy u\n\x7d\n\x7d\n".toList ≠
        "h \x7b\n\timport common\n\treverse_proxy u\n\x7d\n\x7d\n\x7d\n".toList) ∧
    ((upsert "h".toList "".toList "u".toList true).written =
        some "h\n\n \x7b\n\timport common\n\treverse_proxy u\n\x7d\n".toList ∧
      (upsert "h\n\n \x7b\n\timport common\n\treverse_proxy u\n\x7d\n".toList
          "".toList "u".toList true).written =
        some "h\n \x7b\n\timport common\n\treverse_proxy u\n\x7d\n".toList ∧
      "h\n\n \x7b\n\timport common\n\treverse_proxy u\n\x7d\n".toList ≠
        "h\n \x7b\n\timport common\n\treverse_proxy u\n\x7d\n".toList) := by
  decide

/-- C4, amended: for a valid host (one that `^[a-z0-9.-]+$` matches), an
upstream that holds no newline followed by `}`, and a content in which the
locator finds a block for the host or which holds no opening line for the host
at all, the forced upsert writes a content on which a second forced upsert
writes the same content again. -/
theorem upsert_force_idempotent (C H U : Text) (hH : hostMatch H = true)
    (hU : ¬ ['\n', '}'] <:+: U)
    (hC : (findBlock C H).isSome = true ∨ hasOpening C H = false) :
    ∃ C1, (upsert C H U true).written = some C1 ∧
      (upsert C1 H U true).written = some C1 := by
  obtain ⟨hne, hHc⟩ := hostMatch_valid H hH
  cases hf : findBlock C H with
  | some span =>
    obtain ⟨lo, hi⟩ := span
    refine ⟨C.take lo ++ desiredBlock H U ++ C.drop hi, ?_, ?_⟩
    · simp [upsert, hf, Decision.written]
    · rw [upsert_replace_fixed C H U lo hi hne hHc hU hf]
      rfl
  | none =>
    have hno : ¬ HasOpening C H := by
      rcases hC with hC | hC
      · rw [hf] at hC
        simp at hC
      · intro hop
        rw [hasOpening_of_HasOpening C H hop] at hC
        simp at hC
    by_cases hT : trimRightNewlines C = []
    · refine ⟨desiredBlock H U, ?_, ?_⟩
      · simp [upsert, hf, hT, Decision.written]
      · have := upsert_fixed H U [] [] hU (Or.inl rfl) (by
          intro p q hpq hq
          obtain ⟨-, rfl⟩ := List.append_eq_nil.1 hpq.symm
          exact absurd rfl hq)
        simp only [List.nil_append, List.append_nil] at this
        rw [this]
        rfl
    · refine ⟨trimRightNewlines C ++ "\n\n".toList ++ desiredBlock H U, ?_, ?_⟩
      · simp [upsert, hf, hT, Decision.written]
      · rw [upsert_append_fixed C H U hne hHc hU hno]
        rfl

theorem upsert_force_idempotent_witness :
    hostMatch "b.example.com".toList = true ∧
    hasOpening "a.example.com \x7b\n\timport common\n\treverse_proxy 10.0.0.1\n\x7d\n".toList
      "b.example.com".toList = false ∧
    (∃ C1,
      (upsert "a.example.com \x7b\n\timport common\n\treverse_proxy 10.0.0.1\n\x7d\n".toList
        "b.example.com".toList "10.0.0.2".toList true).written = some C1 ∧
      (upsert C1 "b.example.com".toList "10.0.0.2".toList true).written = some C1) ∧
    hostMatch "a.example.com".toList = true ∧
    (findBlock
        ("a.example.com \x7b\n\timport common\n\treverse_proxy 10.0.0.1\n\x7d\n\n".toList ++
          "b.example.com \x7b\n\timport common\n\treverse_proxy 10.0.0.2\n\x7d\n".toList)
        "a.example.com".toList).isSome = true ∧
    ∃ C1,
      (upsert
        ("a.example.com \x7b\n\timport common\n\treverse_proxy 10.0.0.1\n\x7d\n\n".toList ++
          "b.example.com \x7b\n\timport common\n\treverse_proxy 10.0.0.2\n\x7d\n".toList)
        "a.example.com".toList "10.0.0.9".toList true).written = some C1 ∧
      (upsert C1 "a.example.com".toList "10.0.0.9".toList true).written = some C1 :=
  ⟨by decide, by decide,
    upsert_force_idempotent _ "b.example.com".toList "10.0.0.2".toList (by decide)
      (by decide) (Or.inr (by decide)),
    by decide, by decide,
    upsert_force_idempotent _ "a.example.com".toList "10.0.0.9".toList (by decide)
      (by decide) (Or.inl (by decide))⟩

/-! ## Path of a label file -/

theorem cleanLoop_copy (rooted : Bool) (g out : Text) (dd : Nat) (hg : '/' ∉ g) :
    cleanLoop rooted true g out dd = g.reverse ++ out := by
  induction g generalizing out with
  | nil => simp [cleanLoop]
  | cons c t ih =>
    have hc : c ≠ '/' := fun h => hg (by simp [h])
    have ht : '/' ∉ t := fun h => hg (List.mem_cons_of_mem _ h)
    rw [cleanLoop, if_neg hc, ih _ ht]
    simp

theorem cleanLoop_name (rooted : Bool) (f out : Text) (dd : Nat) (hne : f ≠ [])
    (hs : '/' ∉ f) (h1 : f ≠ ['.']) (h2 : f ≠ ['.', '.']) :
    cleanLoop rooted false f out dd = f.reverse ++ (cleanSep rooted out ++ out) := by
  match f, hne, hs, h1, h2 with
  | [c], _, hs, h1, _ =>
    have hc : c ≠ '/' := fun h => hs (by simp [h])
    have hc2 : c ≠ '.' := fun h => h1 (by simp [h])
    rw [cleanLoop, if_neg hc, if_neg hc2]
    unfold cleanSep
    split <;> simp
  | c :: d :: t, _, hs, _, h2 =>
    have hc : c ≠ '/' := fun h => hs (by simp [h])
    have hd : d ≠ '/' := fun h => hs (by simp [h])
    have ht : '/' ∉ d :: t := fun h => hs (List.mem_cons_of_mem _ h)
    have h3 : ¬ (c = '.' ∧ d = '.' ∧ (t = [] ∨ t.head? = some '/')) := by
      rintro ⟨rfl, rfl, h | h⟩
      · exact h2 (by rw [h])
      · cases t with
        | nil => simp at h
        | cons e t =>
          simp only [List.head?_cons, Option.some.injEq] at h
          exact hs (by simp [h])
    rw [cleanLoop, if_neg hc, if_neg (fun h => hd h.2), if_neg h3]
    unfold cleanSep
    split <;> simp [cleanLoop_copy _ _ _ _ ht]

theorem cleanLoop_dir (rooted : Bool) (n : Nat) :
    ∀ (D : Text), D.length ≤ n → ∀ (b : Bool) (out : Text) (dd : Nat),
      ∃ out1 dd1, ∀ f, cleanLoop rooted b (D ++ '/' :: f) out dd =
        cleanLoop rooted false f out1 dd1 := by
  induction n with
  | zero =>
    intro D hD b out dd
    have : D = [] := List.length_eq_zero.1 (Nat.le_zero.1 hD)
    subst this
    refine ⟨out, dd, fun f => ?_⟩
    cases b with
    | true => simp [cleanLoop]
    | false => cases f <;> simp [cleanLoop]
  | succ n ih =>
    intro D hD b out dd
    have hbase : ∀ (b : Bool) (out : Text) (dd : Nat),
        ∃ out1 dd1, ∀ f, cleanLoop rooted b ('/' :: f) out dd =
          cleanLoop rooted false f out1 dd1 := by
      intro b out dd
      have := ih [] (Nat.zero_le _) b out dd
      simpa using this
    match D, hD with
    | [], _ => exact hbase b out dd
    | c :: D1, hD =>
      have hD1 : D1.length ≤ n := by simpa using hD
      cases b with
      | true =>
        by_cases hc : c = '/'
        · obtain ⟨o, d, h⟩ := ih D1 hD1 false out dd
          exact ⟨o, d, fun f => by rw [List.cons_append, cleanLoop, if_pos hc, h]⟩
        · obtain ⟨o, d, h⟩ := ih D1 hD1 true (c :: out) dd
          exact ⟨o, d, fun f => by rw [List.cons_append, cleanLoop, if_neg hc, h]⟩
      | false =>
        match D1, hD1 with
        | [], _ =>
          by_cases hc : c = '/'
          · obtain ⟨o, d, h⟩ := hbase false out dd
            exact ⟨o, d, fun f => by
              rw [List.cons_append, List.nil_append, cleanLoop, if_pos hc, h]⟩
          · by_cases hc2 : c = '.'
            · obtain ⟨o, d, h⟩ := hbase false out dd
              exact ⟨o, d, fun f => by
                rw [List.cons_append, List.nil_append, cleanLoop, if_neg hc,
                  if_pos ⟨hc2, rfl⟩, h]⟩
            · obtain ⟨o, d, h⟩ := hbase true (c :: (cleanSep rooted out ++ out)) dd
              refine ⟨o, d, fun f => ?_⟩
              rw [List.cons_append, List.nil_append, cleanLoop, if_neg hc,
                if_neg (fun h => hc2 h.1), if_neg (fun h => hc2 h.1), ← h]
              unfold cleanSep
              split <;> rfl
        | e :: D2, hD1 =>
          have hD2 : D2.length ≤ n := by
            simp only [List.length_cons] at hD1
            omega
          have hcond : ∀ f : Text, ((D2 ++ '/' :: f) = [] ∨ (D2 ++ '/' :: f).head? = some '/') ↔
              (D2 = [] ∨ D2.head? = some '/') := by
            intro f
            cases D2 <;> simp
          by_cases hc : c = '/'
          · obtain ⟨o, d, h⟩ := ih (e :: D2) hD1 false out dd
            exact ⟨o, d, fun f => by
              rw [List.cons_append, List.cons_append, cleanLoop, if_pos hc, ← List.cons_append, h]⟩
          · by_cases hc2 : c = '.' ∧ e = '/'
            · obtain ⟨o, d, h⟩ := ih (e :: D2) hD1 false out dd
              exact ⟨o, d, fun f => by
                rw [List.cons_append, List.cons_append, cleanLoop, if_neg hc, if_pos hc2,
                  ← List.cons_append, h]⟩
            · by_cases hc3 : c = '.' ∧ e = '.' ∧ (D2 = [] ∨ D2.head? = some '/')
              · obtain ⟨o, d, h⟩ := ih D2 hD2 false (cleanDotDot rooted out dd).1
                  (cleanDotDot rooted out dd).2
                refine ⟨o, d, fun f => ?_⟩
                have hc3f : c = '.' ∧ e = '.' ∧
                    ((D2 ++ '/' :: f) = [] ∨ (D2 ++ '/' :: f).head? = some '/') :=
                  ⟨hc3.1, hc3.2.1, (hcond f).2 hc3.2.2⟩
                rw [List.cons_append, List.cons_append, cleanLoop, if_neg hc, if_neg hc2,
                  if_pos hc3f, h]
              · obtain ⟨o, d, h⟩ := ih (e :: D2) hD1 true (c :: (cleanSep rooted out ++ out)) dd
                refine ⟨o, d, fun f => ?_⟩
                have hc3f : ¬ (c = '.' ∧ e = '.' ∧
                    ((D2 ++ '/' :: f) = [] ∨ (D2 ++ '/' :: f).head? = some '/')) :=
                  fun hx => hc3 ⟨hx.1, hx.2.1, (hcond f).1 hx.2.2⟩
                rw [List.cons_append, List.cons_append, cleanLoop, if_neg hc, if_neg hc2,
                  if_neg hc3f, ← List.cons_append, ← h]
                unfold cleanSep
                split <;> rfl

theorem filepathJoin_name (D : Text) :
    ∃ P, ∀ f, f ≠ [] → '/' ∉ f → f ≠ ['.'] → f ≠ ['.', '.'] → filepathJoin D f = P ++ f := by
  cases D with
  | nil =>
    refine ⟨[], fun f hne hs h1 h2 => ?_⟩
    obtain ⟨c, t, rfl⟩ := List.exists_cons_of_ne_nil hne
    have hc : c ≠ '/' := fun h => hs (by simp [h])
    have hl := cleanLoop_name false (c :: t) [] 0 hne hs h1 h2
    simp only [filepathJoin, filepathClean, hc, hl]
    simp [cleanSep]
  | cons c t =>
    by_cases hc : c = '/'
    · obtain ⟨o, d, h⟩ := cleanLoop_dir true t.length t (le_refl _) false ['/'] 1
      refine ⟨(cleanSep true o ++ o).reverse, fun f hne hs h1 h2 => ?_⟩
      have hl := cleanLoop_name true f o d hne hs h1 h2
      simp only [filepathJoin, filepathClean, List.cons_append, hc, h, hl]
      simp [hne]
    · obtain ⟨o, d, h⟩ := cleanLoop_dir false (c :: t).length (c :: t) (le_refl _) false [] 0
      refine ⟨(cleanSep false o ++ o).reverse, fun f hne hs h1 h2 => ?_⟩
      have hl := cleanLoop_name false f o d hne hs h1 h2
      have h' := h f
      rw [List.cons_append] at h'
      simp only [filepathJoin, filepathClean, List.cons_append, hc, h', hl]
      simp [hne]

theorem isSafeFilename_spec (L : Text) (h : isSafeFilename L = true) : L ≠ [] ∧ '/' ∉ L := by
  unfold isSafeFilename at h
  by_cases hL : L = []
  · simp [hL] at h
  · refine ⟨hL, fun hmem => ?_⟩
    simp only [hL, if_false, List.all_eq_true] at h
    have := h '/' hmem
    simp at this

theorem normalizeExt_spec (E : Text) (hE : '/' ∉ E) :
    normalizeExt E ≠ [] ∧ '/' ∉ normalizeExt E := by
  unfold normalizeExt
  cases E with
  | nil => exact ⟨by decide, by decide⟩
  | cons c t =>
    by_cases hc : c = '.'
    · simp only [hc]
      simp only [hc] at hE
      simpa using hE
    · simp only [ne_eq, reduceCtorEq, not_false_eq_true, List.head?_cons, Option.some.injEq, hc,
        and_self, if_true, if_false]
      simpa using hE

theorem labelFileName_good (E1 L : Text) (hE1 : E1 ≠ []) (hEs : '/' ∉ E1)
    (hL : isSafeFilename L = true) (hext : filepathExt L ≠ E1) :
    labelFileName L E1 = L ++ E1 ∧ L ++ E1 ≠ [] ∧ '/' ∉ L ++ E1 ∧ L ++ E1 ≠ ['.'] ∧
      L ++ E1 ≠ ['.', '.'] := by
  obtain ⟨hne, hs⟩ := isSafeFilename_spec L hL
  obtain ⟨c, t, rfl⟩ := List.exists_cons_of_ne_nil hne
  obtain ⟨e, u, rfl⟩ := List.exists_cons_of_ne_nil hE1
  refine ⟨by simp [labelFileName, hext], by simp, ?_, by simp, ?_⟩
  · simp only [List.mem_append, not_or]
    exact ⟨hs, hEs⟩
  · intro h
    simp only [List.cons_append, List.cons.injEq] at h
    obtain ⟨rfl, h⟩ := h
    cases t with
    | nil =>
      simp only [List.nil_append, List.cons.injEq] at h
      obtain ⟨rfl, rfl⟩ := h
      exact hext (by decide)
    | cons x t =>
      simp only [List.cons_append, List.cons.injEq] at h
      have := h.2
      simp at this

/-- C10, as stated, fails.  The labels `foo` and `foo.caddy` are both safe and
distinct, yet with the extension `.caddy` they resolve to the same path, and
the path of `foo.caddy` is not the directory, the label and the extension: a
label whose own extension (`filepath.Ext`) is the extension already is the
file name as it stands.
With an extension that holds a path separator, `./..`, the labels `a` and `b`
resolve to the same path too. -/
theorem label_path_counterexample :
    isSafeFilename "foo".toList = true ∧ isSafeFilename "foo.caddy".toList = true ∧
    "foo".toList ≠ "foo.caddy".toList ∧
    labelPath "/srv/proxy/sites".toList ".caddy".toList "foo".toList =
      labelPath "/srv/proxy/sites".toList ".caddy".toList "foo.caddy".toList ∧
    labelPath "/srv/proxy/sites".toList ".caddy".toList "foo.caddy".toList ≠
      "/srv/proxy/sites".toList ++ "/".toList ++ "foo.caddy".toList ++ ".caddy".toList ∧
    isSafeFilename "a".toList = true ∧ isSafeFilename "b".toList = true ∧
    labelPath "/srv/proxy/sites".toList "./..".toList "a".toList =
      labelPath "/srv/proxy/sites".toList "./..".toList "b".toList := by
  decide

theorem filepathJoin_dirPrefix (D f : Text) (hne : f ≠ []) (hs : '/' ∉ f)
    (h1 : f ≠ ['.']) (h2 : f ≠ ['.', '.']) : filepathJoin D f = dirPrefix D ++ f := by
  obtain ⟨P, hP⟩ := filepathJoin_name D
  have hx : filepathJoin D ['x'] = P ++ ['x'] :=
    hP ['x'] (by decide) (by decide) (by decide) (by decide)
  have hd : dirPrefix D = P := by
    unfold dirPrefix
    rw [hx]
    simp
  rw [hd]
  exact hP f hne hs h1 h2

theorem normalizeExt_nonempty (E : Text) (hE : E ≠ []) :
    normalizeExt E = if E.head? = some '.' then E else '.' :: E := by
  obtain ⟨c, t, rfl⟩ := List.exists_cons_of_ne_nil hE
  by_cases hc : c = '.' <;> simp [normalizeExt, hc]

/-- C10, amended: for every directory `D`, every non-empty extension `E` without
a path separator and every safe label `L` whose own extension
(`filepath.Ext(L)`) is not the normalised extension (`E` itself when it starts
with a dot, else a dot followed by `E`), the label file path is
`filepath.Join(D, L + E')`, which is the prefix that `filepath.Join` puts before
any plain file name in `D` followed by the label and the normalised extension;
hence two distinct such labels resolve to two distinct paths.  A label whose own
extension is already the normalised extension is the file name as it stands. -/
theorem label_path_one_to_one (D E : Text) (hE0 : E ≠ []) (hE : '/' ∉ E) :
    normalizeExt E = (if E.head? = some '.' then E else '.' :: E) ∧
    (∀ L, isSafeFilename L = true → filepathExt L ≠ normalizeExt E →
      labelPath D E L = filepathJoin D (L ++ normalizeExt E) ∧
      labelPath D E L = dirPrefix D ++ (L ++ normalizeExt E)) ∧
    (∀ L, filepathExt L = normalizeExt E → labelPath D E L = filepathJoin D L) ∧
    (∀ L1 L2, isSafeFilename L1 = true → isSafeFilename L2 = true →
      filepathExt L1 ≠ normalizeExt E → filepathExt L2 ≠ normalizeExt E →
      L1 ≠ L2 → labelPath D E L1 ≠ labelPath D E L2) := by
  obtain ⟨hE1, hEs⟩ := normalizeExt_spec E hE
  have key : ∀ L, isSafeFilename L = true → filepathExt L ≠ normalizeExt E →
      labelPath D E L = filepathJoin D (L ++ normalizeExt E) ∧
      labelPath D E L = dirPrefix D ++ (L ++ normalizeExt E) := by
    intro L hL hext
    obtain ⟨h1, h2, h3, h4, h5⟩ := labelFileName_good (normalizeExt E) L hE1 hEs hL hext
    unfold labelPath
    rw [h1]
    exact ⟨rfl, filepathJoin_dirPrefix D _ h2 h3 h4 h5⟩
  refine ⟨normalizeExt_nonempty E hE0, key, ?_, ?_⟩
  · intro L hext
    simp [labelPath, labelFileName, hext]
  · intro L1 L2 hL1 hL2 hx1 hx2 hne heq
    rw [(key L1 hL1 hx1).2, (key L2 hL2 hx2).2] at heq
    exact hne (List.append_cancel_right (List.append_cancel_left heq))

theorem label_path_one_to_one_witness :
    (".caddy".toList ≠ [] ∧ '/' ∉ ".caddy".toList) ∧
    dirPrefix "/srv/proxy/sites".toList = "/srv/proxy/sites/".toList ∧
    labelPath "/srv/proxy/sites".toList ".caddy".toList "web".toList =
      "/srv/proxy/sites/web.caddy".toList ∧
    labelPath "/srv/proxy/sites".toList "tar.gz".toList "x.tar.gz".toList =
      "/srv/proxy/sites/x.tar.gz.tar.gz".toList ∧
    (normalizeExt ".caddy".toList =
        (if ".caddy".toList.head? = some '.' then ".caddy".toList
          else '.' :: ".caddy".toList) ∧
      (∀ L, isSafeFilename L = true → filepathExt L ≠ normalizeExt ".caddy".toList →
        labelPath "/srv/proxy/sites".toList ".caddy".toList L =
            filepathJoin "/srv/proxy/sites".toList (L ++ normalizeExt ".caddy".toList) ∧
          labelPath "/srv/proxy/sites".toList ".caddy".toList L =
            dirPrefix "/srv/proxy/sites".toList ++ (L ++ normalizeExt ".caddy".toList)) ∧
      (∀ L, filepathExt L = normalizeExt ".caddy".toList →
        labelPath "/srv/proxy/sites".toList ".caddy".toList L =
          filepathJoin "/srv/proxy/sites".toList L) ∧
      (∀ L1 L2, isSafeFilename L1 = true → isSafeFilename L2 = true →
        filepathExt L1 ≠ normalizeExt ".caddy".toList →
        filepathExt L2 ≠ normalizeExt ".caddy".toList →
        L1 ≠ L2 →
        labelPath "/srv/proxy/sites".toList ".caddy".toList L1 ≠
          labelPath "/srv/proxy/sites".toList ".caddy".toList L2)) :=
  ⟨⟨by decide, by decide⟩, by decide, by decide, by decide,
    label_path_one_to_one "/srv/proxy/sites".toList ".caddy".toList (by decide) (by decide)⟩

end CaddyConfigEdit
